import Mathlib

/-!
# Keymap of peco: action resolution, key binding table, key event dispatch

A shallow embedding of `keymap.go`.

* Go maps (`nameToActions`, `Keymap.Action`, `Keymap.Config`, `defaultKeyBinding`,
  the local `kb`) are association lists read with `StrMap.get?`; a list stands for
  the map together with one iteration order.
* The width of `int` (32 or 64 bits) is a parameter, `Platform`.
* The global registry `nameToActions` is passed in and returned explicitly.
* The `keyseq` package and the primitive actions are not part of `keymap.go`;
  they are parameters (`KeyseqPkg`, `Primitives`).
-/

set_option linter.dupNamespace false

namespace Peco

/-! ## Go maps with string keys -/

/-- A Go `map[string]α`: an association list, at most one entry per key. -/
abbrev StrMap (α : Type) := List (String × α)

/-- Map read `m[key]`, with the `ok` flag as the option. -/
def StrMap.get? {α : Type} : StrMap α → String → Option α
  | [], _ => none
  | (k, v) :: m, key => if key = k then some v else StrMap.get? m key

/-- Builtin `delete(m, key)`. -/
def StrMap.delete {α : Type} (m : StrMap α) (key : String) : StrMap α :=
  m.filter (fun p => decide (p.1 ≠ key))

/-- Map write `m[key] = v`: the old entry for `key`, if any, is replaced. -/
def StrMap.set {α : Type} (m : StrMap α) (key : String) (v : α) : StrMap α :=
  (key, v) :: StrMap.delete m key

/-! ## Events, keys, actions -/

/-- Type `termbox.Event`, the fields the keymap reads. -/
structure Event where
  Mod : Nat
  Key : Nat
  Ch : Nat
  deriving DecidableEq, Repr

/-- Constant `termbox.ModAlt`. -/
def ModAlt : Nat := 1

/-- Type `keyseq.ModifierKey`. -/
inductive ModifierKey where
  | ModNone
  | ModAlt
  deriving DecidableEq, Repr

/-- Type `keyseq.Key`. -/
structure Key where
  Modifier : ModifierKey
  Key : Nat
  Ch : Nat
  deriving DecidableEq, Repr

/-- Values of the interface `Action` that the keymap builds or stores.

* `builtin n`: an action of the built-in catalogue (opaque), known by its name;
* `finish n`: the value of `makeFinishAction(n)`;
* `combined l`: the value of `makeCombinedAction(l...)`;
* `doNothing`, `doAcceptChar`: `ActionFunc(doNothing)`, `ActionFunc(doAcceptChar)`;
* `rememberSequence a`, `clearSequence a`: the closures returned by
  `wrapRememberSequence(a)` and `wrapClearSequence(a)`. -/
inductive Action where
  | builtin (name : String)
  | finish (status : Int)
  | combined (actions : List Action)
  | doNothing
  | doAcceptChar
  | rememberSequence (a : Action)
  | clearSequence (a : Action)

/-- Modelled from the spec: `makeFinishAction` is not in `keymap.go`; the spec gives
one dynamic action per parameter value (exit with status `n`). -/
def makeFinishAction (n : Int) : Action := Action.finish n

/-- Modelled from the spec: `makeCombinedAction` is not in `keymap.go`; the spec gives
a combo action holding the children in the listed order. -/
def makeCombinedAction (actions : List Action) : Action := Action.combined actions

/-- The global `nameToActions`. -/
abbrev Registry := StrMap Action

/-! ## strconv.ParseInt, base 10, 64 bits -/

/-- Value of a decimal digit, `none` for any other character. -/
def digitVal (c : Char) : Option Nat :=
  if '0' ≤ c ∧ c ≤ '9' then some (c.toNat - '0'.toNat) else none

/-- Digits read left to right onto the accumulator; `none` at a non-digit. -/
def parseDigits : List Char → Nat → Option Nat
  | [], acc => some acc
  | c :: cs, acc =>
    match digitVal c with
    | none => none
    | some d => parseDigits cs (10 * acc + d)

/-- Call `strconv.ParseInt(s, 10, 64)`: an optional sign, then one or more decimal
digits, the value within the signed 64-bit range; `none` is a non-nil `err`. -/
def ParseInt (s : List Char) : Option Int :=
  match s with
  | [] => none
  | c :: cs =>
    let neg := decide (c = '-')
    let ds := if c = '+' ∨ c = '-' then cs else c :: cs
    match ds with
    | [] => none
    | _ :: _ =>
      match parseDigits ds 0 with
      | none => none
      | some un =>
        if ¬ neg ∧ un ≥ 2 ^ 63 then none
        else if neg ∧ un > 2 ^ 63 then none
        else some (if neg then - (un : Int) else (un : Int))

/-- The platform the program is built for: the width of `int`, which Go fixes at 32 or
64 bits. -/
structure Platform where
  intSize : Nat
  intSize_eq : intSize = 32 ∨ intSize = 64

/-- A platform whose `int` is 64 bits wide. -/
def bits64 : Platform := ⟨64, Or.inr rfl⟩

/-- A platform whose `int` is 32 bits wide. -/
def bits32 : Platform := ⟨32, Or.inl rfl⟩

/-- Conversion `int(v)` of an `int64`: the value wrapped to the width of `int` (the
identity when `int` is 64 bits wide, the low 32 bits, signed, when it is 32). -/
def toGoInt (G : Platform) (v : Int) : Int :=
  (v + 2 ^ (G.intSize - 1)) % 2 ^ G.intSize - 2 ^ (G.intSize - 1)

/-- Call `strings.HasPrefix(s, p)`. -/
def HasPrefix (s p : String) : Bool := p.toList.isPrefixOf s.toList

/-- The `if strings.HasPrefix(name, "peco.Finish")` block of `resolveActionName`:
the exit status when `name[11:]` parses, `none` when the block falls through. -/
def finishStatus (G : Platform) (name : String) : Option Int :=
  if HasPrefix name "peco.Finish" then
    match ParseInt (name.toList.drop 11) with
    | some intstr => some (toGoInt G intstr)
    | none => none
  else none

/-! ## resolveActionName -/

/-- The two errors `resolveActionName` makes with `fmt.Errorf`. -/
inductive ResolveError where
  | deepRecursion (name : String)
  | noSuchAction (name : String)
  deriving DecidableEq, Repr

/-- The text of the error. -/
def ResolveError.Error : ResolveError → String
  | .deepRecursion name => "error: Could not resolve " ++ name ++ ": deep recursion"
  | .noSuchAction name => "error: Could not resolve " ++ name ++ ": no such action"

/-- Constant `maxResolveActionDepth`. -/
def maxResolveActionDepth : Int := 100

/-- What a call of `resolveActionName` leaves: the returned pair `(Action, error)`,
the global registry after the call, and (ghost) the invocations of
`resolveActionName` made, this one first, as `(name, depth)` in call order. -/
structure Resolution where
  val : Except ResolveError Action
  nameToActions : Registry
  calls : List (String × Int)

/-- What the `for _, actionName := range l` loop leaves: the `actions` slice or the
error returned from inside the loop, the registry, and (ghost) the calls made. -/
structure ChildrenResolution where
  val : Except ResolveError (List Action)
  nameToActions : Registry
  calls : List (String × Int)

/-- The loop over the child names of a combined action; `resolve` is the recursive
call `km.resolveActionName(actionName, depth+1)`, `actions` the slice built so far. -/
def resolveChildren (resolve : String → Registry → Option Resolution) :
    List String → List Action → Registry → Option ChildrenResolution
  | [], actions, reg => some ⟨.ok actions, reg, []⟩
  | actionName :: l, actions, reg =>
    match resolve actionName reg with
    | none => none
    | some r =>
      match r.val with
      | .error err => some ⟨.error err, r.nameToActions, r.calls⟩
      | .ok child =>
        match resolveChildren resolve l (actions ++ [child]) r.nameToActions with
        | none => none
        | some rs => some ⟨rs.val, rs.nameToActions, r.calls ++ rs.calls⟩

/-- Function `resolveActionName` with a bound on the nesting of calls: `none` when the
bound is used up. `action` is the field `km.Action`. -/
def resolveFuel (G : Platform) (action : StrMap (List String)) :
    Nat → String → Int → Registry → Option Resolution
  | 0, _, _, _ => none
  | fuel + 1, name, depth, reg =>
    if depth ≥ maxResolveActionDepth then
      some ⟨.error (.deepRecursion name), reg, [(name, depth)]⟩
    else
      match reg.get? name with
      | some v => some ⟨.ok v, reg, [(name, depth)]⟩
      | none =>
        match finishStatus G name with
        | some n =>
          let v := makeFinishAction n
          some ⟨.ok v, reg.set name v, [(name, depth)]⟩
        | none =>
          match action.get? name with
          | some l =>
            match resolveChildren (fun c r => resolveFuel G action fuel c (depth + 1) r) l [] reg with
            | none => none
            | some rs =>
              match rs.val with
              | .error err => some ⟨.error err, rs.nameToActions, (name, depth) :: rs.calls⟩
              | .ok actions =>
                let v := makeCombinedAction actions
                some ⟨.ok v, rs.nameToActions.set name v, (name, depth) :: rs.calls⟩
          | none => some ⟨.error (.noSuchAction name), reg, [(name, depth)]⟩

/-- Nesting bound that `resolveActionName` cannot use up from `depth`. -/
def resolveBound (depth : Int) : Nat := (maxResolveActionDepth - depth).toNat + 1

/-- Method `Keymap.resolveActionName`. The second branch is never taken
(`resolveFuel` at `resolveBound depth` always returns). -/
def resolveActionName (G : Platform) (action : StrMap (List String)) (name : String) (depth : Int)
    (reg : Registry) : Resolution :=
  match resolveFuel G action (resolveBound depth) name depth reg with
  | some r => r
  | none => ⟨.error (.deepRecursion name), reg, []⟩

/-! ## The keyseq package and the primitive actions (parameters) -/

/-- Errors of `keyseq.Keyseq.AcceptKey`: `ErrInSequence`, and the others. -/
inductive KeyseqError where
  | ErrInSequence
  | ErrNoMatch
  | other (msg : String)
  deriving DecidableEq, Repr

/-- The `keyseq` package as the keymap uses it; `σ` is the state behind a
`*keyseq.Keyseq`. Every method returns the state it leaves. -/
structure KeyseqPkg (σ : Type) where
  EventToString : Event → Except String String
  ToKeyList : String → Except String (List Key)
  Clear : σ → σ
  Add : σ → List Key → Action → σ
  Compile : σ → σ
  AcceptKey : σ → Key → Except KeyseqError Action × σ

/-- Type `Keymap`. `Config` is listed in the order the `range` loop visits it. -/
structure Keymap (σ : Type) where
  Config : StrMap String
  Action : StrMap (List String)
  Keyseq : σ

/-- One message handed to the status bar: the text and the delay after which it is
cleared (a `time.Duration`, in nanoseconds), if any. -/
structure StatusMsg where
  text : String
  clearDelay : Option Nat
  deriving DecidableEq, Repr

/-- Type `Input`: the in-progress key sequence, the messages sent to the status bar
so far (oldest first), and the rest of the state, which the keymap does not touch. -/
structure Input (β : Type) where
  currentKeySeq : List String
  status : List StatusMsg
  rest : β

/-- The actions whose bodies are not in `keymap.go`, as state transformers. -/
structure Primitives (β : Type) where
  builtin : String → Input β → Event → Input β
  finish : Int → Input β → Event → Input β
  doAcceptChar : Input β → Event → Input β

/-- Constant `time.Millisecond`. -/
def Millisecond : Nat := 1000000

/-- Modelled from the spec: `Input.SendStatusMsg` is not in `keymap.go`; the status
sink receives the text with no auto-clear duration. -/
def Input.SendStatusMsg {β : Type} (i : Input β) (msg : String) : Input β :=
  { i with status := i.status ++ [⟨msg, none⟩] }

/-- Modelled from the spec: `Input.SendStatusMsgAndClear` is not in `keymap.go`; the
status sink receives the text with the auto-clear duration. -/
def Input.SendStatusMsgAndClear {β : Type} (i : Input β) (msg : String) (d : Nat) : Input β :=
  { i with status := i.status ++ [⟨msg, some d⟩] }

/-- Modelled from the spec: `doNothing` is not in `keymap.go`; the spec calls the action
returned while a sequence is in progress a no-op. -/
def doNothing {β : Type} (i : Input β) (_ev : Event) : Input β := i

/-- Call `strings.Join(l, " ")`. -/
def joinSpace (l : List String) : String := String.intercalate " " l

/-- Body of the closure made by `wrapRememberSequence`, up to `a.Execute(i, ev)`. -/
def rememberStep {β : Type} (eventToString : Event → Except String String)
    (i : Input β) (ev : Event) : Input β :=
  match eventToString ev with
  | .ok s =>
    let i1 := { i with currentKeySeq := i.currentKeySeq ++ [s] }
    i1.SendStatusMsg (joinSpace i1.currentKeySeq)
  | .error _ => i

/-- Body of the closure made by `wrapClearSequence`, up to `a.Execute(i, ev)`. -/
def clearStep {β : Type} (eventToString : Event → Except String String)
    (i : Input β) (ev : Event) : Input β :=
  let i1 :=
    match eventToString ev with
    | .ok s => { i with currentKeySeq := i.currentKeySeq ++ [s] }
    | .error _ => i
  if i1.currentKeySeq.length > 0 then
    let i2 := i1.SendStatusMsgAndClear (joinSpace i1.currentKeySeq) (500 * Millisecond)
    { i2 with currentKeySeq := [] }
  else i1

mutual
/-- Method `Action.Execute`. The bodies of the builtin actions, of the finish actions and
of `doAcceptChar` are the parameter `P`; for `doNothing` and `combined` see `doNothing` and
`executeAll`. -/
def Action.Execute {β : Type} (P : Primitives β)
    (eventToString : Event → Except String String) : Action → Input β → Event → Input β
  | .builtin name, i, ev => P.builtin name i ev
  | .finish n, i, ev => P.finish n i ev
  | .combined l, i, ev => executeAll P eventToString l i ev
  | .doNothing, i, ev => doNothing i ev
  | .doAcceptChar, i, ev => P.doAcceptChar i ev
  | .rememberSequence a, i, ev =>
    Action.Execute P eventToString a (rememberStep eventToString i ev) ev
  | .clearSequence a, i, ev =>
    Action.Execute P eventToString a (clearStep eventToString i ev) ev
/-- Modelled from the spec: the body of a combined action is not in `keymap.go`; the
children are executed in the listed order, each with the same event. -/
def executeAll {β : Type} (P : Primitives β)
    (eventToString : Event → Except String String) : List Action → Input β → Event → Input β
  | [], i, _ => i
  | a :: l, i, ev =>
    executeAll P eventToString l (Action.Execute P eventToString a i ev) ev
end

/-- Function `wrapRememberSequence`. -/
def wrapRememberSequence (a : Action) : Action := Action.rememberSequence a

/-- Function `wrapClearSequence`. -/
def wrapClearSequence (a : Action) : Action := Action.clearSequence a

/-- The key that `Handler` hands to the matcher. -/
def eventKey (ev : Event) : Key :=
  let modifier := if ev.Mod &&& ModAlt ≠ 0 then ModifierKey.ModAlt else ModifierKey.ModNone
  ⟨modifier, ev.Key, ev.Ch⟩

/-- Method `Keymap.Handler`: the action for the event, and the matcher state that
`AcceptKey` leaves. -/
def Handler {σ : Type} (K : KeyseqPkg σ) (km : Keymap σ) (ev : Event) : Action × σ :=
  let key := eventKey ev
  let r := K.AcceptKey km.Keyseq key
  match r.1 with
  | .ok action => (wrapClearSequence action, r.2)
  | .error .ErrInSequence => (wrapRememberSequence Action.doNothing, r.2)
  | .error _ => (wrapClearSequence Action.doAcceptChar, r.2)

/-- One turn of the event loop: ask `Handler` for the action of the event, then
execute it with the same event. -/
def dispatch {σ β : Type} (K : KeyseqPkg σ) (P : Primitives β)
    (st : Keymap σ × Input β) (ev : Event) : Keymap σ × Input β :=
  let h := Handler K st.1 ev
  ({ st.1 with Keyseq := h.2 }, h.1.Execute P K.EventToString st.2 ev)

/-! ## ApplyKeybinding -/

/-- The variables the `for s, as := range km.Config` loop works on: the local table
`kb`, the global registry, and what has been written to `os.Stderr`. -/
structure Munge where
  kb : StrMap Action
  nameToActions : Registry
  stderr : List String

/-- One turn of the `for s, as := range km.Config` loop. -/
def mungeStep (G : Platform) (action : StrMap (List String)) (st : Munge) (entry : String × String) :
    Munge :=
  if entry.2 = "-" then
    { st with kb := st.kb.delete entry.1 }
  else
    let r := resolveActionName G action entry.2 0 st.nameToActions
    match r.val with
    | .error err =>
      { st with nameToActions := r.nameToActions, stderr := st.stderr ++ [err.Error ++ "\n"] }
    | .ok v =>
      { st with kb := st.kb.set entry.1 v, nameToActions := r.nameToActions }

/-- The `for s, as := range km.Config` loop. -/
def mungeConfig (G : Platform) (action : StrMap (List String)) (config : StrMap String) (st : Munge) :
    Munge :=
  config.foldl (mungeStep G action) st

/-- The `for s, a := range defaultKeyBinding` loop: the copy of the defaults. -/
def copyDefaults (defaultKeyBinding : StrMap Action) : StrMap Action :=
  defaultKeyBinding.foldl (fun kb e => kb.set e.1 e.2) []

/-- One turn of the `for s, a := range kb` loop: the matcher and `os.Stderr`. -/
def compileStep {σ : Type} (K : KeyseqPkg σ) (st : σ × List String) (e : String × Action) :
    σ × List String :=
  match K.ToKeyList e.1 with
  | .error err => (st.1, st.2 ++ ["Unknown key " ++ e.1 ++ ": " ++ err])
  | .ok list => (K.Add st.1 list e.2, st.2)

/-- What `ApplyKeybinding` leaves: the matcher, the registry, `os.Stderr`, and
(ghost) the merged table `kb` as it stood when the matcher was compiled. -/
structure Applied (σ : Type) where
  Keyseq : σ
  nameToActions : Registry
  stderr : List String
  kb : StrMap Action

/-- Method `Keymap.ApplyKeybinding`. `defaultKeyBinding` and `reg` are the globals
`defaultKeyBinding` and `nameToActions`. -/
def ApplyKeybinding (G : Platform) {σ : Type} (K : KeyseqPkg σ) (defaultKeyBinding : StrMap Action)
    (km : Keymap σ) (reg : Registry) : Applied σ :=
  let k := K.Clear km.Keyseq
  let m := mungeConfig G km.Action km.Config ⟨copyDefaults defaultKeyBinding, reg, []⟩
  let c := m.kb.foldl (compileStep K) (k, m.stderr)
  ⟨K.Compile c.1, m.nameToActions, c.2, m.kb⟩

/-! ## The combo graph -/

/-- `b` is listed in the child list of the combo `a`. -/
def Child (action : StrMap (List String)) (a b : String) : Prop :=
  ∃ l, action.get? a = some l ∧ b ∈ l

/-- Resolving `a` against `reg` expands `a` into its children, `b` among them: `a` is
not registered in `reg`, does not parse as a dynamic finish name, and lists `b`. -/
def Expands (G : Platform) (action : StrMap (List String)) (reg : Registry) (a b : String) : Prop :=
  reg.get? a = none ∧ finishStatus G a = none ∧ Child action a b

/-- The registry after a sequence of calls `resolveActionName(name, depth)`, each made
on the registry that the previous one left. -/
def resolveSeq (G : Platform) (action : StrMap (List String)) : List (String × Int) → Registry → Registry
  | [], reg => reg
  | (name, depth) :: calls, reg =>
    resolveSeq G action calls (resolveActionName G action name depth reg).nameToActions

/-! ## Children resolved one after the other -/

/-- The children `l` all resolve at `depth`, in list order, each on the registry the
previous one left: `actions` are the actions returned, `reg'` the registry after the last. -/
inductive ResolvedInOrder (G : Platform) (action : StrMap (List String)) (depth : Int) :
    Registry → List String → List Action → Registry → Prop where
  | nil (reg : Registry) : ResolvedInOrder G action depth reg [] [] reg
  | cons (reg : Registry) (c : String) (l : List String) (a : Action)
      (actions : List Action) (reg' : Registry)
      (hc : (resolveActionName G action c depth reg).val = .ok a)
      (hl : ResolvedInOrder G action depth
        (resolveActionName G action c depth reg).nameToActions l actions reg') :
      ResolvedInOrder G action depth reg (c :: l) (a :: actions) reg'

/-- Some child of `l` fails at `depth`, resolving in list order, each child on the registry
the previous one left: `err` is the error of the first child that fails, `reg'` the
registry that this child's call leaves. -/
inductive FirstFailure (G : Platform) (action : StrMap (List String)) (depth : Int) :
    Registry → List String → ResolveError → Registry → Prop where
  | here (reg : Registry) (c : String) (l : List String) (err : ResolveError)
      (hc : (resolveActionName G action c depth reg).val = .error err) :
      FirstFailure G action depth reg (c :: l) err
        (resolveActionName G action c depth reg).nameToActions
  | later (reg : Registry) (c : String) (l : List String) (a : Action)
      (err : ResolveError) (reg' : Registry)
      (hc : (resolveActionName G action c depth reg).val = .ok a)
      (hl : FirstFailure G action depth
        (resolveActionName G action c depth reg).nameToActions l err reg') :
      FirstFailure G action depth reg (c :: l) err reg'

/-! ## The matcher over a run of events -/

/-- The matcher state after `AcceptKey` has been given the keys of the events, in order. -/
def acceptKeys {σ : Type} (K : KeyseqPkg σ) : σ → List Event → σ
  | k, [] => k
  | k, ev :: evs => acceptKeys K (K.AcceptKey k (eventKey ev)).2 evs

/-- What `AcceptKey` reports for each of the events, given their keys in order. -/
def outcomes {σ : Type} (K : KeyseqPkg σ) : σ → List Event → List (Except KeyseqError Action)
  | _, [] => []
  | k, ev :: evs =>
    (K.AcceptKey k (eventKey ev)).1 :: outcomes K (K.AcceptKey k (eventKey ev)).2 evs

/-! ## The pairs for the matcher, the sequence shown -/

/-- The pairs that the key specs of a table parse to: for each entry whose key spec
`ToKeyList` accepts, the key list and the action, in the order of the table. -/
def parsedPairs {σ : Type} (K : KeyseqPkg σ) (kb : StrMap Action) : List (List Key × Action) :=
  kb.filterMap (fun e =>
    match K.ToKeyList e.1 with
    | .ok list => some (list, e.2)
    | .error _ => none)

/-- The diagnostics that the key specs of a table give rise to: for each entry whose key
spec `ToKeyList` rejects, the line written to `os.Stderr`, in the order of the table. -/
def unknownKeys {σ : Type} (K : KeyseqPkg σ) (kb : StrMap Action) : List String :=
  kb.filterMap (fun e =>
    match K.ToKeyList e.1 with
    | .ok _ => none
    | .error err => some ("Unknown key " ++ e.1 ++ ": " ++ err))

/-- The in-progress sequence as `wrapClearSequence` shows it: the sequence so far, with the
display string of the event at the end when `EventToString` gives one. -/
def shownKeys (currentKeySeq : List String) (r : Except String String) : List String :=
  match r with
  | .ok s => currentKeySeq ++ [s]
  | .error _ => currentKeySeq

/-! ## Runs of the config loop, names that stay unresolvable -/

/-- Whether a result of `resolveActionName` is the recursion-limit error. -/
def isDepthLimit (r : Except ResolveError Action) : Bool :=
  match r with
  | .error (.deepRecursion _) => true
  | _ => false

/-- Whether some turn of the config loop, run from the state `st`, resolves a name to the
recursion-limit error. -/
def depthLimitHit (G : Platform) (action : StrMap (List String)) :
    StrMap String → Munge → Bool
  | [], _ => false
  | e :: config, st =>
    (e.2 != "-" && isDepthLimit (resolveActionName G action e.2 0 st.nameToActions).val)
      || depthLimitHit G action config (mungeStep G action st e)

/-- A set of names that cannot be resolved while none of them is registered: no member is
a dynamic finish name, and each is no combo key at all or a combo with a child in the set. -/
def Doomed (G : Platform) (action : StrMap (List String)) (C : String → Prop) : Prop :=
  ∀ n, C n → finishStatus G n = none ∧ (action.get? n = none ∨ ∃ c, Child action n c ∧ C c)

/-! ## Example packages, for concrete runs -/

/-- A `keyseq` package that records what `Add` is given and matches nothing; a key spec
parses when it is one character long, to the key of that character. -/
def recordingKeyseq : KeyseqPkg (List (List Key × Action)) where
  EventToString := fun ev => .ok (String.singleton (Char.ofNat ev.Ch))
  ToKeyList := fun s =>
    match s.toList with
    | [c] => .ok [⟨ModifierKey.ModNone, 0, c.toNat⟩]
    | _ => .error "no such key"
  Clear := fun _ => []
  Add := fun k list a => k ++ [(list, a)]
  Compile := fun k => k
  AcceptKey := fun k _ => (.error .ErrNoMatch, k)

/-- A matcher for the sequences `a` and `a b` (the latter bound to the builtin `Bar`): the
key `a` from the start is in sequence, the key `b` after it gives `Bar`, anything else is no
match. The state is the number of keys of the sequence seen so far. -/
def abKeyseq : KeyseqPkg Nat where
  EventToString := fun ev => .ok (String.singleton (Char.ofNat ev.Ch))
  ToKeyList := fun _ => .error "unused"
  Clear := fun _ => 0
  Add := fun k _ _ => k
  Compile := fun k => k
  AcceptKey := fun k key =>
    if k = 0 ∧ key.Ch = 'a'.toNat then (.error .ErrInSequence, 1)
    else if k = 1 ∧ key.Ch = 'b'.toNat then (.ok (Action.builtin "Bar"), 0)
    else (.error .ErrNoMatch, 0)

/-- Primitive actions that write their name (or exit status) to the rest of the state. -/
def recordingPrimitives : Primitives (List String) where
  builtin := fun name i _ => { i with rest := i.rest ++ [name] }
  finish := fun n i _ => { i with rest := i.rest ++ [toString n] }
  doAcceptChar := fun i _ => { i with rest := i.rest ++ ["doAcceptChar"] }

/-- Name of the `i`-th combo of `chainActions`. -/
def chainName (i : Nat) : String := "c" ++ toString i

/-- A combo configuration that is one chain of a hundred combos: `c0 = [c1]`, ...,
`c98 = [c99]`, `c99 = [peco.Finish0]`. -/
def chainActions : StrMap (List String) :=
  (List.range 100).map
    (fun i => (chainName i, [if i + 1 < 100 then chainName (i + 1) else "peco.Finish0"]))

variable {G : Platform}

/-! ## The dynamic finish pattern, whatever the platform -/

theorem finishStatus_outside_pattern (name : String)
    (h : HasPrefix name "peco.Finish" = false) : finishStatus G name = none := by
  simp [finishStatus, h]

theorem finishStatus_of_parse_none (name : String)
    (h : ParseInt (name.toList.drop 11) = none) : finishStatus G name = none := by
  unfold finishStatus
  rw [h]
  split <;> rfl

/-! ## Maps: reading after a write or a delete -/

theorem StrMap.get?_delete {α : Type} (m : StrMap α) (key k : String) :
    (m.delete key).get? k = if k = key then none else m.get? k := by
  induction m with
  | nil => simp [StrMap.delete, StrMap.get?]
  | cons p m ih =>
    obtain ⟨a, b⟩ := p
    simp only [StrMap.delete] at ih
    by_cases ha : a = key
    · subst ha
      by_cases hk : k = a
      · simp [StrMap.delete, List.filter_cons, StrMap.get?, hk] at ih ⊢
        simpa [hk] using ih
      · simp [StrMap.delete, List.filter_cons, StrMap.get?, hk] at ih ⊢
        simpa [hk] using ih
    · by_cases hk : k = key
      · have hka : k ≠ a := fun h => ha (h ▸ hk)
        simp [StrMap.delete, List.filter_cons, StrMap.get?, ha, hk, hka] at ih ⊢
        have hak : ¬ key = a := fun h => ha h.symm
        simpa [hk, hak] using ih
      · simp [StrMap.delete, List.filter_cons, StrMap.get?, ha, hk] at ih ⊢
        rw [ih]

theorem StrMap.get?_set {α : Type} (m : StrMap α) (key k : String) (v : α) :
    (m.set key v).get? k = if k = key then some v else m.get? k := by
  by_cases hk : k = key
  · simp [StrMap.set, StrMap.get?, hk]
  · simp [StrMap.set, StrMap.get?, hk, StrMap.get?_delete]

/-! ## resolveActionName: the nesting bound is never used up -/

theorem resolveChildren_isSome (f : String → Registry → Option Resolution)
    (hf : ∀ c reg, (f c reg).isSome) (l : List String) :
    ∀ actions reg, (resolveChildren f l actions reg).isSome := by
  induction l with
  | nil => intro actions reg; simp [resolveChildren]
  | cons c l ih =>
    intro actions reg
    obtain ⟨r, hr⟩ := Option.isSome_iff_exists.mp (hf c reg)
    unfold resolveChildren
    rw [hr]
    cases hv : r.val with
    | error e => simp [hv]
    | ok child =>
      obtain ⟨rs, hrs⟩ := Option.isSome_iff_exists.mp (ih (actions ++ [child]) r.nameToActions)
      simp [hv, hrs]

theorem resolveFuel_isSome (action : StrMap (List String)) :
    ∀ (fuel : Nat) (name : String) (depth : Int) (reg : Registry),
      (maxResolveActionDepth - depth).toNat < fuel →
      (resolveFuel G action fuel name depth reg).isSome := by
  intro fuel
  induction fuel with
  | zero => intro name depth reg h; omega
  | succ fuel ih =>
    intro name depth reg h
    unfold resolveFuel
    split
    · simp
    · rename_i hd
      split
      · simp
      · split
        · simp
        · split
          · rename_i l _
            have hsome := resolveChildren_isSome
              (fun c r => resolveFuel G action fuel c (depth + 1) r)
              (fun c r => ih c (depth + 1) r (by
                simp only [maxResolveActionDepth] at hd h ⊢; omega)) l [] reg
            obtain ⟨rs, hrs⟩ := Option.isSome_iff_exists.mp hsome
            simp only [hrs]
            cases rs.val <;> simp
          · simp

theorem resolveChildren_mono (f g : String → Registry → Option Resolution)
    (hfg : ∀ c reg r, f c reg = some r → g c reg = some r) (l : List String) :
    ∀ actions reg rs, resolveChildren f l actions reg = some rs →
      resolveChildren g l actions reg = some rs := by
  induction l with
  | nil => intro actions reg rs h; simpa [resolveChildren] using h
  | cons c l ih =>
    intro actions reg rs h
    unfold resolveChildren at h ⊢
    cases hf : f c reg with
    | none => simp [hf] at h
    | some r =>
      rw [hf] at h
      rw [hfg c reg r hf]
      cases hv : r.val with
      | error e => simpa [hv] using h
      | ok child =>
        simp only [hv] at h ⊢
        cases hrec : resolveChildren f l (actions ++ [child]) r.nameToActions with
        | none => simp [hrec] at h
        | some rs1 =>
          rw [hrec] at h
          rw [ih _ _ _ hrec]
          exact h

theorem resolveFuel_succ_of_some (action : StrMap (List String)) :
    ∀ (fuel : Nat) (name : String) (depth : Int) (reg : Registry) (r : Resolution),
      resolveFuel G action fuel name depth reg = some r →
      resolveFuel G action (fuel + 1) name depth reg = some r := by
  intro fuel
  induction fuel with
  | zero => intro name depth reg r h; simp [resolveFuel] at h
  | succ fuel ih =>
    intro name depth reg r h
    unfold resolveFuel at h ⊢
    split
    · rename_i hd; simpa [hd] using h
    · rename_i hd
      simp only [hd, if_false] at h
      cases hreg : reg.get? name with
      | some v => simpa [hreg] using h
      | none =>
        simp only [hreg] at h ⊢
        cases hfin : finishStatus G name with
        | some n => simpa [hfin] using h
        | none =>
          simp only [hfin] at h ⊢
          cases hact : action.get? name with
          | none => simpa [hact] using h
          | some l =>
            simp only [hact] at h ⊢
            cases hrs : resolveChildren (fun c r => resolveFuel G action fuel c (depth + 1) r)
                l [] reg with
            | none => simp [hrs] at h
            | some rs =>
              rw [hrs] at h
              rw [resolveChildren_mono _
                (fun c r => resolveFuel G action (fuel + 1) c (depth + 1) r)
                (fun c reg r h => ih c (depth + 1) reg r h) l [] reg rs hrs]
              exact h

theorem resolveFuel_mono (action : StrMap (List String)) (fuel fuel' : Nat) (hle : fuel ≤ fuel')
    (name : String) (depth : Int) (reg : Registry) (r : Resolution)
    (h : resolveFuel G action fuel name depth reg = some r) :
    resolveFuel G action fuel' name depth reg = some r := by
  induction hle with
  | refl => exact h
  | step _ ih => exact resolveFuel_succ_of_some action _ name depth reg r ih

/-- At the bound of `resolveActionName` the bounded function returns, and what it
returns is the value of `resolveActionName`. -/
theorem resolveFuel_bound (action : StrMap (List String)) (name : String) (depth : Int)
    (reg : Registry) :
    resolveFuel G action (resolveBound depth) name depth reg =
      some (resolveActionName G action name depth reg) := by
  obtain ⟨r, hr⟩ := Option.isSome_iff_exists.mp
    (resolveFuel_isSome (G := G) action (resolveBound depth) name depth reg
      (by simp [resolveBound]))
  simp [resolveActionName, hr]

/-- With any bound that returns, the bounded function agrees with `resolveActionName`. -/
theorem resolveFuel_eq_resolveActionName (action : StrMap (List String)) (fuel : Nat)
    (name : String) (depth : Int) (reg : Registry) (r : Resolution)
    (h : resolveFuel G action fuel name depth reg = some r) :
    r = resolveActionName G action name depth reg := by
  have h1 := resolveFuel_mono (G := G) action fuel (max fuel (resolveBound depth)) (le_max_left _ _)
    name depth reg r h
  have h2 := resolveFuel_mono (G := G) action (resolveBound depth) (max fuel (resolveBound depth))
    (le_max_right _ _) name depth reg _ (resolveFuel_bound (G := G) action name depth reg)
  rw [h1] at h2
  exact Option.some.inj h2

/-! ## Induction over the calls of resolveActionName -/

/-- Rule induction for `resolveActionName`: `P` is shown of every call and `Q` of every
run of the loop over children, one case per way out of the function or the loop. -/
theorem resolveFuel_induction (action : StrMap (List String))
    {P : String → Int → Registry → Resolution → Prop}
    {Q : List String → Int → List Action → Registry → ChildrenResolution → Prop}
    (deep : ∀ name depth reg, depth ≥ maxResolveActionDepth →
      P name depth reg ⟨.error (.deepRecursion name), reg, [(name, depth)]⟩)
    (registered : ∀ name depth reg v, depth < maxResolveActionDepth →
      reg.get? name = some v → P name depth reg ⟨.ok v, reg, [(name, depth)]⟩)
    (finish : ∀ name depth reg n, depth < maxResolveActionDepth →
      reg.get? name = none → finishStatus G name = some n →
      P name depth reg
        ⟨.ok (makeFinishAction n), reg.set name (makeFinishAction n), [(name, depth)]⟩)
    (comboErr : ∀ name depth reg l rs err, depth < maxResolveActionDepth →
      reg.get? name = none → finishStatus G name = none → action.get? name = some l →
      Q l (depth + 1) [] reg rs → rs.val = .error err →
      P name depth reg ⟨.error err, rs.nameToActions, (name, depth) :: rs.calls⟩)
    (comboOk : ∀ name depth reg l rs actions, depth < maxResolveActionDepth →
      reg.get? name = none → finishStatus G name = none → action.get? name = some l →
      Q l (depth + 1) [] reg rs → rs.val = .ok actions →
      P name depth reg
        ⟨.ok (makeCombinedAction actions),
          rs.nameToActions.set name (makeCombinedAction actions), (name, depth) :: rs.calls⟩)
    (unknown : ∀ name depth reg, depth < maxResolveActionDepth →
      reg.get? name = none → finishStatus G name = none → action.get? name = none →
      P name depth reg ⟨.error (.noSuchAction name), reg, [(name, depth)]⟩)
    (nil : ∀ depth actions reg, Q [] depth actions reg ⟨.ok actions, reg, []⟩)
    (consErr : ∀ c l depth actions reg r err, r = resolveActionName G action c depth reg →
      P c depth reg r → r.val = .error err →
      Q (c :: l) depth actions reg ⟨.error err, r.nameToActions, r.calls⟩)
    (consOk : ∀ c l depth actions reg r child rs, r = resolveActionName G action c depth reg →
      P c depth reg r → r.val = .ok child →
      Q l depth (actions ++ [child]) r.nameToActions rs →
      Q (c :: l) depth actions reg ⟨rs.val, rs.nameToActions, r.calls ++ rs.calls⟩) :
    ∀ (fuel : Nat) (name : String) (depth : Int) (reg : Registry) (r : Resolution),
      resolveFuel G action fuel name depth reg = some r → P name depth reg r := by
  intro fuel
  induction fuel with
  | zero => intro name depth reg r h; simp [resolveFuel] at h
  | succ fuel ih =>
    have hQ : ∀ (depth : Int) (l : List String) (actions : List Action) (reg : Registry)
        (rs : ChildrenResolution),
        resolveChildren (fun c r => resolveFuel G action fuel c depth r) l actions reg = some rs →
        Q l depth actions reg rs := by
      intro depth l
      induction l with
      | nil =>
        intro actions reg rs h
        simp only [resolveChildren, Option.some.injEq] at h
        subst h
        exact nil depth actions reg
      | cons c l ihl =>
        intro actions reg rs h
        unfold resolveChildren at h
        cases hf : resolveFuel G action fuel c depth reg with
        | none => simp [hf] at h
        | some r =>
          simp only [hf] at h
          cases hv : r.val with
          | error e =>
            simp only [hv, Option.some.injEq] at h
            subst h
            exact consErr c l depth actions reg r e
              (resolveFuel_eq_resolveActionName action fuel c depth reg r hf)
              (ih c depth reg r hf) hv
          | ok child =>
            simp only [hv] at h
            cases hrec : resolveChildren (fun c r => resolveFuel G action fuel c depth r) l
                (actions ++ [child]) r.nameToActions with
            | none => simp [hrec] at h
            | some rs1 =>
              simp only [hrec, Option.some.injEq] at h
              subst h
              exact consOk c l depth actions reg r child rs1
                (resolveFuel_eq_resolveActionName action fuel c depth reg r hf)
                (ih c depth reg r hf) hv (ihl _ _ _ hrec)
    intro name depth reg r h
    unfold resolveFuel at h
    by_cases hd : depth ≥ maxResolveActionDepth
    · simp only [hd, if_true, Option.some.injEq] at h
      subst h
      exact deep name depth reg hd
    · simp only [hd, if_false] at h
      have hd' : depth < maxResolveActionDepth := lt_of_not_ge hd
      cases hreg : reg.get? name with
      | some v =>
        simp only [hreg, Option.some.injEq] at h
        subst h
        exact registered name depth reg v hd' hreg
      | none =>
        simp only [hreg] at h
        cases hfin : finishStatus G name with
        | some n =>
          simp only [hfin, Option.some.injEq] at h
          subst h
          exact finish name depth reg n hd' hreg hfin
        | none =>
          simp only [hfin] at h
          cases hact : action.get? name with
          | none =>
            simp only [hact, Option.some.injEq] at h
            subst h
            exact unknown name depth reg hd' hreg hfin hact
          | some l =>
            simp only [hact] at h
            cases hrs : resolveChildren (fun c r => resolveFuel G action fuel c (depth + 1) r)
                l [] reg with
            | none => simp [hrs] at h
            | some rs =>
              simp only [hrs] at h
              have hq := hQ (depth + 1) l [] reg rs hrs
              cases hv : rs.val with
              | error e =>
                simp only [hv, Option.some.injEq] at h
                subst h
                exact comboErr name depth reg l rs e hd' hreg hfin hact hq hv
              | ok actions =>
                simp only [hv, Option.some.injEq] at h
                subst h
                exact comboOk name depth reg l rs actions hd' hreg hfin hact hq hv

/-- Rule induction, read at the value of `resolveActionName`. -/
theorem resolveActionName_induction (action : StrMap (List String))
    {P : String → Int → Registry → Resolution → Prop}
    {Q : List String → Int → List Action → Registry → ChildrenResolution → Prop}
    (deep : ∀ name depth reg, depth ≥ maxResolveActionDepth →
      P name depth reg ⟨.error (.deepRecursion name), reg, [(name, depth)]⟩)
    (registered : ∀ name depth reg v, depth < maxResolveActionDepth →
      reg.get? name = some v → P name depth reg ⟨.ok v, reg, [(name, depth)]⟩)
    (finish : ∀ name depth reg n, depth < maxResolveActionDepth →
      reg.get? name = none → finishStatus G name = some n →
      P name depth reg
        ⟨.ok (makeFinishAction n), reg.set name (makeFinishAction n), [(name, depth)]⟩)
    (comboErr : ∀ name depth reg l rs err, depth < maxResolveActionDepth →
      reg.get? name = none → finishStatus G name = none → action.get? name = some l →
      Q l (depth + 1) [] reg rs → rs.val = .error err →
      P name depth reg ⟨.error err, rs.nameToActions, (name, depth) :: rs.calls⟩)
    (comboOk : ∀ name depth reg l rs actions, depth < maxResolveActionDepth →
      reg.get? name = none → finishStatus G name = none → action.get? name = some l →
      Q l (depth + 1) [] reg rs → rs.val = .ok actions →
      P name depth reg
        ⟨.ok (makeCombinedAction actions),
          rs.nameToActions.set name (makeCombinedAction actions), (name, depth) :: rs.calls⟩)
    (unknown : ∀ name depth reg, depth < maxResolveActionDepth →
      reg.get? name = none → finishStatus G name = none → action.get? name = none →
      P name depth reg ⟨.error (.noSuchAction name), reg, [(name, depth)]⟩)
    (nil : ∀ depth actions reg, Q [] depth actions reg ⟨.ok actions, reg, []⟩)
    (consErr : ∀ c l depth actions reg r err, r = resolveActionName G action c depth reg →
      P c depth reg r → r.val = .error err →
      Q (c :: l) depth actions reg ⟨.error err, r.nameToActions, r.calls⟩)
    (consOk : ∀ c l depth actions reg r child rs, r = resolveActionName G action c depth reg →
      P c depth reg r → r.val = .ok child →
      Q l depth (actions ++ [child]) r.nameToActions rs →
      Q (c :: l) depth actions reg ⟨rs.val, rs.nameToActions, r.calls ++ rs.calls⟩)
    (name : String) (depth : Int) (reg : Registry) :
    P name depth reg (resolveActionName G action name depth reg) :=
  resolveFuel_induction (G := G) action deep registered finish comboErr comboOk unknown nil consErr
    consOk (resolveBound depth) name depth reg _ (resolveFuel_bound (G := G) action name depth reg)

/-! ## The registry only grows -/

theorem resolveActionName_get?_of_get? (action : StrMap (List String)) (name : String)
    (depth : Int) (reg : Registry) (k : String) (v : Action) (h : reg.get? k = some v) :
    (resolveActionName G action name depth reg).nameToActions.get? k = some v := by
  have key := resolveActionName_induction (G := G) action
    (P := fun _ _ reg r => ∀ k v, reg.get? k = some v → r.nameToActions.get? k = some v)
    (Q := fun _ _ _ reg rs => ∀ k v, reg.get? k = some v → rs.nameToActions.get? k = some v)
    (by intro name depth reg _ k v h; exact h)
    (by intro name depth reg _ _ _ k v h; exact h)
    (by
      intro name depth reg n _ hreg _ k v h
      have hk : k ≠ name := fun e => by rw [e, hreg] at h; cases h
      simp [StrMap.get?_set, hk, h])
    (by intro name depth reg l rs err _ _ _ _ hq _ k v h; exact hq k v h)
    (by
      intro name depth reg l rs actions _ hreg _ _ hq _ k v h
      have hk : k ≠ name := fun e => by rw [e, hreg] at h; cases h
      simp [StrMap.get?_set, hk, hq k v h])
    (by intro name depth reg _ _ _ _ k v h; exact h)
    (by intro depth actions reg k v h; exact h)
    (by intro c l depth actions reg r err _ hp _ k v h; exact hp k v h)
    (by intro c l depth actions reg r child rs _ hp _ hq k v h; exact hq k v (hp k v h))
    name depth reg
  exact key k v h

theorem resolveActionName_get?_none (action : StrMap (List String)) (name : String)
    (depth : Int) (reg : Registry) (k : String)
    (h : (resolveActionName G action name depth reg).nameToActions.get? k = none) :
    reg.get? k = none := by
  cases hk : reg.get? k with
  | none => rfl
  | some v => rw [resolveActionName_get?_of_get? action name depth reg k v hk] at h; cases h

/-! ## Names that can never be resolved -/

/-- A set of names none of which is registered or dynamic, each a combo with a child
in the set: no call registers a member, and every call on a member fails. -/
theorem resolveActionName_closed_set (action : StrMap (List String)) (C : String → Prop)
    (hC : ∀ n, C n → finishStatus G n = none ∧ ∃ c, Child action n c ∧ C c)
    (name : String) (depth : Int) (reg : Registry) (hreg : ∀ n, C n → reg.get? n = none) :
    (∀ n, C n → (resolveActionName G action name depth reg).nameToActions.get? n = none) ∧
    (C name → ∃ e, (resolveActionName G action name depth reg).val = .error e) := by
  have key := resolveActionName_induction (G := G) action
    (P := fun name _ reg r => (∀ n, C n → reg.get? n = none) →
      (∀ n, C n → r.nameToActions.get? n = none) ∧ (C name → ∃ e, r.val = .error e))
    (Q := fun l _ _ reg rs => (∀ n, C n → reg.get? n = none) →
      (∀ n, C n → rs.nameToActions.get? n = none) ∧
      ((∃ c, c ∈ l ∧ C c) → ∃ e, rs.val = .error e))
    (by intro name depth reg _ h; exact ⟨h, fun _ => ⟨_, rfl⟩⟩)
    (by
      intro name depth reg v _ hv h
      refine ⟨h, fun hc => ?_⟩
      rw [h name hc] at hv; cases hv)
    (by
      intro name depth reg n _ _ hfin h
      have hn : ¬ C name := fun hc => by rw [(hC name hc).1] at hfin; cases hfin
      refine ⟨fun m hm => ?_, fun hc => absurd hc hn⟩
      have hne : m ≠ name := fun e => hn (e ▸ hm)
      simp [StrMap.get?_set, hne, h m hm])
    (by
      intro name depth reg l rs err _ _ _ _ hq hv h
      exact ⟨(hq h).1, fun _ => ⟨err, rfl⟩⟩)
    (by
      intro name depth reg l rs actions _ _ _ hact hq hv h
      have hn : ¬ C name := by
        intro hc
        obtain ⟨_, c, ⟨l', hl', hmem⟩, hcc⟩ := hC name hc
        rw [hact] at hl'
        cases hl'
        obtain ⟨e, he⟩ := (hq h).2 ⟨c, hmem, hcc⟩
        rw [hv] at he; cases he
      refine ⟨fun m hm => ?_, fun hc => absurd hc hn⟩
      have hne : m ≠ name := fun e => hn (e ▸ hm)
      simp [StrMap.get?_set, hne, (hq h).1 m hm])
    (by
      intro name depth reg _ _ _ hact h
      refine ⟨h, fun hc => ?_⟩
      obtain ⟨_, c, ⟨l', hl', _⟩, _⟩ := hC name hc
      rw [hact] at hl'; cases hl')
    (by
      intro depth actions reg h
      exact ⟨h, fun ⟨c, hc, _⟩ => by cases hc⟩)
    (by
      intro c l depth actions reg r err _ hp _ h
      exact ⟨(hp h).1, fun _ => ⟨err, rfl⟩⟩)
    (by
      intro c l depth actions reg r child rs _ hp hv hq h
      have hc : ¬ C c := fun hc => by
        obtain ⟨e, he⟩ := (hp h).2 hc
        rw [hv] at he; cases he
      refine ⟨(hq (hp h).1).1, ?_⟩
      rintro ⟨c', hmem, hc'⟩
      rcases List.mem_cons.mp hmem with e | hmem
      · exact absurd (e ▸ hc') hc
      · exact (hq (hp h).1).2 ⟨c', hmem, hc'⟩)
    name depth reg
  exact key hreg

theorem Expands.of_resolveActionName (action : StrMap (List String)) (name : String)
    (depth : Int) (reg : Registry) (a b : String)
    (h : Expands G action (resolveActionName G action name depth reg).nameToActions a b) :
    Expands G action reg a b :=
  ⟨resolveActionName_get?_none action name depth reg a h.1, h.2.1, h.2.2⟩

/-- A name that a call registers is reached from the name of the call through
expansions. -/
theorem resolveActionName_new_entry (action : StrMap (List String)) (name : String)
    (depth : Int) (reg : Registry) (x : String) (h0 : reg.get? x = none)
    (h1 : (resolveActionName G action name depth reg).nameToActions.get? x ≠ none) :
    Relation.ReflTransGen (Expands G action reg) name x := by
  have key := resolveActionName_induction (G := G) action
    (P := fun name _ reg r => ∀ x, reg.get? x = none → r.nameToActions.get? x ≠ none →
      Relation.ReflTransGen (Expands G action reg) name x)
    (Q := fun l _ _ reg rs => ∀ x, reg.get? x = none → rs.nameToActions.get? x ≠ none →
      ∃ c, c ∈ l ∧ Relation.ReflTransGen (Expands G action reg) c x)
    (by intro name depth reg _ x h0 h1; exact absurd h0 h1)
    (by intro name depth reg v _ _ x h0 h1; exact absurd h0 h1)
    (by
      intro name depth reg n _ _ _ x h0 h1
      by_cases hx : x = name
      · rw [hx]
      · simp [StrMap.get?_set, hx] at h1
        exact absurd h0 h1)
    (by
      intro name depth reg l rs err _ hreg hfin hact hq _ x h0 h1
      obtain ⟨c, hc, hcx⟩ := hq x h0 h1
      exact Relation.ReflTransGen.head ⟨hreg, hfin, l, hact, hc⟩ hcx)
    (by
      intro name depth reg l rs actions _ hreg hfin hact hq _ x h0 h1
      by_cases hx : x = name
      · rw [hx]
      · simp only [StrMap.get?_set, hx, if_false] at h1
        obtain ⟨c, hc, hcx⟩ := hq x h0 h1
        exact Relation.ReflTransGen.head ⟨hreg, hfin, l, hact, hc⟩ hcx)
    (by intro name depth reg _ _ _ _ x h0 h1; exact absurd h0 h1)
    (by intro depth actions reg x h0 h1; exact absurd h0 h1)
    (by
      intro c l depth actions reg r err _ hp _ x h0 h1
      exact ⟨c, List.mem_cons_self _ _, hp x h0 h1⟩)
    (by
      intro c l depth actions reg r child rs hr hp _ hq x h0 h1
      by_cases hx : r.nameToActions.get? x = none
      · obtain ⟨c', hc', hcx⟩ := hq x hx h1
        refine ⟨c', List.mem_cons_of_mem _ hc', ?_⟩
        refine Relation.ReflTransGen.mono ?_ hcx
        intro a b hab
        rw [hr] at hab
        exact Expands.of_resolveActionName action c depth reg a b hab
      · exact ⟨c, List.mem_cons_self _ _, hp x h0 hx⟩)
    name depth reg
  exact key x h0 h1

/-- A call on a child of `x` does not register `x` while `x` is being expanded. -/
theorem resolveActionName_child_keeps (action : StrMap (List String)) (c : String)
    (depth : Int) (reg : Registry) (x : String) (hx : Expands G action reg x c) :
    (resolveActionName G action c depth reg).nameToActions.get? x = none := by
  by_contra hne
  have hcx := resolveActionName_new_entry (G := G) action c depth reg x hx.1 hne
  let C : String → Prop := fun y =>
    Relation.ReflTransGen (Expands G action reg) c y ∧
    Relation.ReflTransGen (Expands G action reg) y x
  have hstep : ∀ y, C y → ∃ z, Expands G action reg y z ∧ C z := by
    intro y hy
    rcases Relation.ReflTransGen.cases_head hy.2 with e | ⟨z, hyz, hzx⟩
    · exact ⟨c, e ▸ hx, Relation.ReflTransGen.refl, hcx⟩
    · exact ⟨z, hyz, hy.1.tail hyz, hzx⟩
  have hC : ∀ n, C n → finishStatus G n = none ∧ ∃ c, Child action n c ∧ C c := by
    intro n hn
    obtain ⟨z, hnz, hz⟩ := hstep n hn
    exact ⟨hnz.2.1, z, hnz.2.2, hz⟩
  have hreg : ∀ n, C n → reg.get? n = none := by
    intro n hn
    obtain ⟨z, hnz, _⟩ := hstep n hn
    exact hnz.1
  exact hne ((resolveActionName_closed_set action C hC c depth reg hreg).1 x
    ⟨hcx, Relation.ReflTransGen.refl⟩)

/-- A call that fails does not register its own name. -/
theorem resolveActionName_error_keeps (action : StrMap (List String)) (name : String)
    (depth : Int) (reg : Registry) (h0 : reg.get? name = none) (e : ResolveError)
    (he : (resolveActionName G action name depth reg).val = .error e) :
    (resolveActionName G action name depth reg).nameToActions.get? name = none := by
  have key := resolveActionName_induction (G := G) action
    (P := fun name _ reg r => reg.get? name = none → (∃ e, r.val = .error e) →
      r.nameToActions.get? name = none)
    (Q := fun l _ _ reg rs => ∀ x, reg.get? x = none → finishStatus G x = none →
      (∀ c, c ∈ l → Child action x c) → rs.nameToActions.get? x = none)
    (by intro name depth reg _ h0 _; exact h0)
    (by intro name depth reg v _ _ _ he; obtain ⟨e, he⟩ := he; cases he)
    (by intro name depth reg n _ _ _ _ he; obtain ⟨e, he⟩ := he; cases he)
    (by
      intro name depth reg l rs err _ hreg hfin hact hq _ _ _
      exact hq name hreg hfin (fun c hc => ⟨l, hact, hc⟩))
    (by intro name depth reg l rs actions _ _ _ _ _ _ _ he; obtain ⟨e, he⟩ := he; cases he)
    (by intro name depth reg _ _ _ _ h0 _; exact h0)
    (by intro depth actions reg x h0 _ _; exact h0)
    (by
      intro c l depth actions reg r err hr _ _ x h0 hfin hch
      rw [hr]
      exact resolveActionName_child_keeps action c depth reg x
        ⟨h0, hfin, hch c (List.mem_cons_self _ _)⟩)
    (by
      intro c l depth actions reg r child rs hr _ _ hq x h0 hfin hch
      refine hq x ?_ hfin (fun c' hc' => hch c' (List.mem_cons_of_mem _ hc'))
      rw [hr]
      exact resolveActionName_child_keeps action c depth reg x
        ⟨h0, hfin, hch c (List.mem_cons_self _ _)⟩)
    name depth reg
  exact key h0 ⟨e, he⟩

/-! ## The calls made, and where the errors come from -/

/-- The call log starts with the call itself; every nested call is deeper than the
call and at a depth of at most `maxResolveActionDepth`. -/
theorem resolveActionName_calls (action : StrMap (List String)) (name : String)
    (depth : Int) (reg : Registry) :
    (resolveActionName G action name depth reg).calls.head? = some (name, depth) ∧
    ∀ c, c ∈ (resolveActionName G action name depth reg).calls.tail →
      depth < c.2 ∧ c.2 ≤ maxResolveActionDepth := by
  have key := resolveActionName_induction (G := G) action
    (P := fun name depth _ r => r.calls.head? = some (name, depth) ∧
      ∀ c, c ∈ r.calls.tail → depth < c.2 ∧ c.2 ≤ maxResolveActionDepth)
    (Q := fun _ depth _ _ rs => depth ≤ maxResolveActionDepth →
      ∀ c, c ∈ rs.calls → depth ≤ c.2 ∧ c.2 ≤ maxResolveActionDepth)
    (by intro name depth reg _; simp)
    (by intro name depth reg v _ _; simp)
    (by intro name depth reg n _ _ _; simp)
    (by
      intro name depth reg l rs err hd _ _ _ hq _
      refine ⟨rfl, fun c hc => ?_⟩
      have := hq (by omega) c hc
      exact ⟨by omega, this.2⟩)
    (by
      intro name depth reg l rs actions hd _ _ _ hq _
      refine ⟨rfl, fun c hc => ?_⟩
      have := hq (by omega) c hc
      exact ⟨by omega, this.2⟩)
    (by intro name depth reg _ _ _ _; simp)
    (by intro depth actions reg _ c hc; cases hc)
    (by
      intro c l depth actions reg r err _ hp _ hd x hx
      obtain ⟨hh, ht⟩ := hp
      cases hcalls : r.calls with
      | nil => rw [hcalls] at hx; cases hx
      | cons a t =>
        rw [hcalls] at hh hx ht
        simp only [List.head?_cons, Option.some.injEq] at hh
        rcases List.mem_cons.mp hx with e | hmem
        · rw [e, hh]; exact ⟨le_refl _, hd⟩
        · have := ht x hmem
          exact ⟨le_of_lt this.1, this.2⟩)
    (by
      intro c l depth actions reg r child rs _ hp _ hq hd x hx
      obtain ⟨hh, ht⟩ := hp
      rcases List.mem_append.mp hx with hx | hx
      · cases hcalls : r.calls with
        | nil => rw [hcalls] at hx; cases hx
        | cons a t =>
          rw [hcalls] at hh hx ht
          simp only [List.head?_cons, Option.some.injEq] at hh
          rcases List.mem_cons.mp hx with e | hmem
          · rw [e, hh]; exact ⟨le_refl _, hd⟩
          · have := ht x hmem
            exact ⟨le_of_lt this.1, this.2⟩
      · exact hq hd x hx)
    name depth reg
  exact key

/-- A no-such-action error names a dangling name: the name of the call or a listed
child, not registered, not a dynamic finish name, not a combo key. -/
theorem resolveActionName_noSuchAction (action : StrMap (List String)) (name : String)
    (depth : Int) (reg : Registry) (y : String)
    (h : (resolveActionName G action name depth reg).val = .error (.noSuchAction y)) :
    reg.get? y = none ∧ finishStatus G y = none ∧ action.get? y = none ∧
      (y = name ∨ ∃ p, Child action p y) := by
  have key := resolveActionName_induction (G := G) action
    (P := fun name _ reg r => ∀ y, r.val = .error (.noSuchAction y) →
      reg.get? y = none ∧ finishStatus G y = none ∧ action.get? y = none ∧
        (y = name ∨ ∃ p, Child action p y))
    (Q := fun l _ _ reg rs => ∀ y, rs.val = .error (.noSuchAction y) →
      reg.get? y = none ∧ finishStatus G y = none ∧ action.get? y = none ∧
        (y ∈ l ∨ ∃ p, Child action p y))
    (by intro name depth reg _ y h; cases h)
    (by intro name depth reg v _ _ y h; cases h)
    (by intro name depth reg n _ _ _ y h; cases h)
    (by
      intro name depth reg l rs err _ _ _ hact hq hv y h
      simp only [Except.error.injEq] at h
      obtain ⟨h1, h2, h3, h4⟩ := hq y (h ▸ hv)
      refine ⟨h1, h2, h3, Or.inr ?_⟩
      rcases h4 with h4 | h4
      · exact ⟨name, l, hact, h4⟩
      · exact h4)
    (by intro name depth reg l rs actions _ _ _ _ _ _ y h; cases h)
    (by
      intro name depth reg _ hreg hfin hact y h
      simp only [Except.error.injEq, ResolveError.noSuchAction.injEq] at h
      subst h
      exact ⟨hreg, hfin, hact, Or.inl rfl⟩)
    (by intro depth actions reg y h; cases h)
    (by
      intro c l depth actions reg r err _ hp hv y h
      simp only [Except.error.injEq] at h
      obtain ⟨h1, h2, h3, h4⟩ := hp y (h ▸ hv)
      refine ⟨h1, h2, h3, ?_⟩
      rcases h4 with h4 | h4
      · exact Or.inl (h4 ▸ List.mem_cons_self _ _)
      · exact Or.inr h4)
    (by
      intro c l depth actions reg r child rs hr _ _ hq y h
      obtain ⟨h1, h2, h3, h4⟩ := hq y h
      rw [hr] at h1
      refine ⟨resolveActionName_get?_none action c depth reg y h1, h2, h3, ?_⟩
      rcases h4 with h4 | h4
      · exact Or.inl (List.mem_cons_of_mem _ h4)
      · exact Or.inr h4)
    name depth reg
  exact key y h

/-- At `depth >= maxResolveActionDepth` the call fails at once. -/
theorem resolveActionName_deep (action : StrMap (List String)) (name : String)
    (depth : Int) (reg : Registry) (hd : depth ≥ maxResolveActionDepth) :
    resolveActionName G action name depth reg =
      ⟨.error (.deepRecursion name), reg, [(name, depth)]⟩ := by
  have h := resolveFuel_bound (G := G) action name depth reg
  simp only [resolveBound] at h
  unfold resolveFuel at h
  simp only [hd, if_true, Option.some.injEq] at h
  exact h.symm

/-- A call that succeeds leaves its name registered to the action it returns. -/
theorem resolveActionName_ok_registered (action : StrMap (List String)) (name : String)
    (depth : Int) (reg : Registry) (a : Action)
    (h : (resolveActionName G action name depth reg).val = .ok a) :
    (resolveActionName G action name depth reg).nameToActions.get? name = some a := by
  have key := resolveActionName_induction (G := G) action
    (P := fun name _ _ r => ∀ a, r.val = .ok a → r.nameToActions.get? name = some a)
    (Q := fun _ _ _ _ _ => True)
    (by intro name depth reg _ a h; cases h)
    (by intro name depth reg v _ hv a h; cases h; exact hv)
    (by intro name depth reg n _ _ _ a h; cases h; simp [StrMap.get?_set])
    (by intro name depth reg l rs err _ _ _ _ _ _ a h; cases h)
    (by intro name depth reg l rs actions _ _ _ _ _ _ a h; cases h; simp [StrMap.get?_set])
    (by intro name depth reg _ _ _ _ a h; cases h)
    (by intro depth actions reg; trivial)
    (by intro c l depth actions reg r err _ _ _; trivial)
    (by intro c l depth actions reg r child rs _ _ _ _; trivial)
    name depth reg
  exact key a h

/-- A name that a call registers has itself been resolved: it is a dynamic finish name,
or a combo whose children are all registered when the call returns. -/
theorem resolveActionName_new_entry_resolved (action : StrMap (List String))
    (name : String) (depth : Int) (reg : Registry) (k : String) (h0 : reg.get? k = none)
    (h1 : (resolveActionName G action name depth reg).nameToActions.get? k ≠ none) :
    finishStatus G k ≠ none ∨ ∃ l, action.get? k = some l ∧
      ∀ c, c ∈ l → (resolveActionName G action name depth reg).nameToActions.get? c ≠ none := by
  have grow : ∀ (r1 r2 : Registry), (∀ k v, r1.get? k = some v → r2.get? k = some v) →
      ∀ c, r1.get? c ≠ none → r2.get? c ≠ none := by
    intro r1 r2 h c hc
    obtain ⟨v, hv⟩ := Option.ne_none_iff_exists'.mp hc
    rw [h c v hv]; simp
  have key := resolveActionName_induction (G := G) action
    (P := fun _ _ reg r =>
      (∀ k v, reg.get? k = some v → r.nameToActions.get? k = some v) ∧
      ∀ k, reg.get? k = none → r.nameToActions.get? k ≠ none →
        finishStatus G k ≠ none ∨ ∃ l, action.get? k = some l ∧
          ∀ c, c ∈ l → r.nameToActions.get? c ≠ none)
    (Q := fun l _ _ reg rs =>
      (∀ k v, reg.get? k = some v → rs.nameToActions.get? k = some v) ∧
      (∀ k, reg.get? k = none → rs.nameToActions.get? k ≠ none →
        finishStatus G k ≠ none ∨ ∃ l, action.get? k = some l ∧
          ∀ c, c ∈ l → rs.nameToActions.get? c ≠ none) ∧
      ∀ actions, rs.val = .ok actions → ∀ c, c ∈ l → rs.nameToActions.get? c ≠ none)
    (by intro name depth reg _; exact ⟨fun _ _ h => h, fun k h0 h1 => absurd h0 h1⟩)
    (by intro name depth reg v _ _; exact ⟨fun _ _ h => h, fun k h0 h1 => absurd h0 h1⟩)
    (by
      intro name depth reg n _ hreg hfin
      refine ⟨fun k v h => ?_, fun k h0 h1 => ?_⟩
      · have hk : k ≠ name := fun e => by rw [e, hreg] at h; cases h
        simp [StrMap.get?_set, hk, h]
      · by_cases hk : k = name
        · left; rw [hk, hfin]; simp
        · simp only [StrMap.get?_set, hk, if_false] at h1
          exact absurd h0 h1)
    (by
      intro name depth reg l rs err _ _ _ _ hq _
      exact ⟨hq.1, hq.2.1⟩)
    (by
      intro name depth reg l rs actions _ hreg _ hact hq hv
      have hset : ∀ k v, rs.nameToActions.get? k = some v → k ≠ name →
          (rs.nameToActions.set name (makeCombinedAction actions)).get? k = some v := by
        intro k v h hk
        simp [StrMap.get?_set, hk, h]
      have hset' : ∀ c, rs.nameToActions.get? c ≠ none →
          (rs.nameToActions.set name (makeCombinedAction actions)).get? c ≠ none := by
        intro c hc
        by_cases hcn : c = name
        · simp [StrMap.get?_set, hcn]
        · simpa [StrMap.get?_set, hcn] using hc
      refine ⟨fun k v h => ?_, fun k h0 h1 => ?_⟩
      · have hk : k ≠ name := fun e => by rw [e, hreg] at h; cases h
        exact hset k v (hq.1 k v h) hk
      · by_cases hk : k = name
        · right
          exact ⟨l, hk ▸ hact, fun c hc => hset' c (hq.2.2 actions hv c hc)⟩
        · simp only [StrMap.get?_set, hk, if_false] at h1
          rcases hq.2.1 k h0 h1 with h | ⟨l', hl', hall⟩
          · exact Or.inl h
          · exact Or.inr ⟨l', hl', fun c hc => hset' c (hall c hc)⟩)
    (by intro name depth reg _ _ _ _; exact ⟨fun _ _ h => h, fun k h0 h1 => absurd h0 h1⟩)
    (by
      intro depth actions reg
      exact ⟨fun _ _ h => h, fun k h0 h1 => absurd h0 h1, fun _ _ c hc => by cases hc⟩)
    (by
      intro c l depth actions reg r err _ hp _
      exact ⟨hp.1, hp.2, fun _ h => by cases h⟩)
    (by
      intro c l depth actions reg r child rs hr hp hv hq
      refine ⟨fun k v h => hq.1 k v (hp.1 k v h), fun k h0 h1 => ?_, fun actions' hv' c' hc' => ?_⟩
      · by_cases hk : r.nameToActions.get? k = none
        · exact hq.2.1 k hk h1
        · rcases hp.2 k h0 hk with h | ⟨l', hl', hall⟩
          · exact Or.inl h
          · exact Or.inr ⟨l', hl', fun c hc => grow _ _ hq.1 c (hall c hc)⟩
      · rcases List.mem_cons.mp hc' with e | hmem
        · have hreg : r.nameToActions.get? c = some child := by
            rw [hr] at hv ⊢
            exact resolveActionName_ok_registered action c depth reg child hv
          rw [e, hq.1 c child hreg]; simp
        · exact hq.2.2 actions' hv' c' hmem)
    name depth reg
  exact key.2 k h0 h1

/-- A call that fails on a name that is no combo key leaves the registry as it was. -/
theorem resolveActionName_error_no_combo (action : StrMap (List String)) (name : String)
    (depth : Int) (reg : Registry) (e : ResolveError)
    (he : (resolveActionName G action name depth reg).val = .error e)
    (hact : action.get? name = none) :
    (resolveActionName G action name depth reg).nameToActions = reg := by
  have key := resolveActionName_induction (G := G) action
    (P := fun name _ reg r => (∃ e, r.val = .error e) → action.get? name = none →
      r.nameToActions = reg)
    (Q := fun _ _ _ _ _ => True)
    (by intro name depth reg _ _ _; rfl)
    (by intro name depth reg v _ _ _ _; rfl)
    (by intro name depth reg n _ _ _ he _; obtain ⟨e, he⟩ := he; cases he)
    (by intro name depth reg l rs err _ _ _ hact _ _ _ h; rw [hact] at h; cases h)
    (by intro name depth reg l rs actions _ _ _ hact _ _ _ h; rw [hact] at h; cases h)
    (by intro name depth reg _ _ _ _ _ _; rfl)
    (by intro depth actions reg; trivial)
    (by intro c l depth actions reg r err _ _ _; trivial)
    (by intro c l depth actions reg r child rs _ _ _ _; trivial)
    name depth reg
  exact key ⟨e, he⟩ hact

/-! ## Cycles of combos (C1) -/

/-- C1, as stated, fails: a combo that lists itself need not end in the recursion-limit
error. With `loop = [nosuch, loop]` the call fails with the no-such-action error of the
sibling listed first; a combo named `peco.Finish1` that lists itself resolves, as the
dynamic finish action, without any error. -/
theorem resolveActionName_cycle_counterexample :
    Relation.TransGen (Child [("loop", ["nosuch", "loop"])]) "loop" "loop" ∧
    (resolveActionName bits64 [("loop", ["nosuch", "loop"])] "loop" 0 []).val =
      .error (.noSuchAction "nosuch") ∧
    Relation.TransGen (Child [("peco.Finish1", ["peco.Finish1"])])
      "peco.Finish1" "peco.Finish1" ∧
    (resolveActionName bits64 [("peco.Finish1", ["peco.Finish1"])] "peco.Finish1" 0 []).val =
      .ok (Action.finish 1) := by
  refine ⟨Relation.TransGen.single ⟨_, rfl, by simp⟩, rfl,
    Relation.TransGen.single ⟨_, rfl, by simp⟩, rfl⟩

/-- C1 (amended): when `N` lies on a cycle of expansions (combo names that are neither
registered nor dynamic finish names, each listing the next), `resolveActionName(N, depth)`
fails at every depth and leaves `N` unregistered; the error is the recursion-limit error
as soon as no listed child is dangling (each is registered, a dynamic finish name or a
combo key); every nested call is made at a depth of at most `maxResolveActionDepth`. -/
theorem resolveActionName_cycle (action : StrMap (List String)) (reg : Registry)
    (N : String) (depth : Int) (hcyc : Relation.TransGen (Expands G action reg) N N) :
    (∃ e, (resolveActionName G action N depth reg).val = .error e) ∧
    (resolveActionName G action N depth reg).nameToActions.get? N = none ∧
    ((∀ p c, Child action p c →
        reg.get? c ≠ none ∨ finishStatus G c ≠ none ∨ action.get? c ≠ none) →
      ∃ x, (resolveActionName G action N depth reg).val = .error (.deepRecursion x)) ∧
    (∀ c, c ∈ (resolveActionName G action N depth reg).calls.tail →
      depth < c.2 ∧ c.2 ≤ maxResolveActionDepth) := by
  let C : String → Prop := fun y =>
    Relation.TransGen (Expands G action reg) N y ∧
    Relation.ReflTransGen (Expands G action reg) y N
  have hstep : ∀ y, C y → ∃ z, Expands G action reg y z ∧ C z := by
    intro y hy
    rcases Relation.ReflTransGen.cases_head hy.2 with e | ⟨z, hyz, hzN⟩
    · obtain ⟨z, hNz, hzN⟩ := Relation.TransGen.head'_iff.mp hcyc
      exact ⟨z, e ▸ hNz, Relation.TransGen.single hNz, hzN⟩
    · exact ⟨z, hyz, hy.1.tail hyz, hzN⟩
  have hC : ∀ n, C n → finishStatus G n = none ∧ ∃ c, Child action n c ∧ C c := by
    intro n hn
    obtain ⟨z, hnz, hz⟩ := hstep n hn
    exact ⟨hnz.2.1, z, hnz.2.2, hz⟩
  have hreg : ∀ n, C n → reg.get? n = none := by
    intro n hn
    obtain ⟨z, hnz, _⟩ := hstep n hn
    exact hnz.1
  have hN : C N := ⟨hcyc, Relation.ReflTransGen.refl⟩
  obtain ⟨hfree, hfail⟩ := resolveActionName_closed_set (G := G) action C hC N depth reg hreg
  refine ⟨hfail hN, hfree N hN, fun hdang => ?_,
    (resolveActionName_calls action N depth reg).2⟩
  obtain ⟨e, he⟩ := hfail hN
  cases e with
  | deepRecursion x => exact ⟨x, he⟩
  | noSuchAction y =>
    exfalso
    obtain ⟨h1, h2, h3, h4⟩ := resolveActionName_noSuchAction (G := G) action N depth reg y he
    rcases h4 with h4 | ⟨p, hp⟩
    · obtain ⟨_, c, ⟨l, hl, _⟩, _⟩ := hC N hN
      rw [h4, hl] at h3; cases h3
    · rcases hdang p y hp with h | h | h
      · exact h h1
      · exact h h2
      · exact h h3

/-- C1 (amended) at the combo `loop = [loop]` and the empty registry. -/
theorem resolveActionName_cycle_witness :
    (∃ e, (resolveActionName bits64 [("loop", ["loop"])] "loop" 0 []).val = .error e) ∧
    (resolveActionName bits64 [("loop", ["loop"])] "loop" 0 []).nameToActions.get? "loop" = none ∧
    ((∀ p c, Child [("loop", ["loop"])] p c →
        StrMap.get? ([] : Registry) c ≠ none ∨ finishStatus bits64 c ≠ none ∨
          StrMap.get? [("loop", ["loop"])] c ≠ none) →
      ∃ x, (resolveActionName bits64 [("loop", ["loop"])] "loop" 0 []).val =
        .error (.deepRecursion x)) ∧
    (∀ c, c ∈ (resolveActionName bits64 [("loop", ["loop"])] "loop" 0 []).calls.tail →
      (0 : Int) < c.2 ∧ c.2 ≤ maxResolveActionDepth) :=
  resolveActionName_cycle [("loop", ["loop"])] [] "loop" 0
    (Relation.TransGen.single ⟨rfl, by decide, ["loop"], rfl, by simp⟩)

/-! ## Termination (C2) -/

/-- C2: `resolveActionName` is total with `maxResolveActionDepth - depth` as the measure:
for every name, depth, registry and combo configuration, every nesting bound above
`(maxResolveActionDepth - depth).toNat` lets the bounded function return, always with the
same result, the value of `resolveActionName`; the first call logged is the call itself and
every nested call is made at a depth above `depth` and of at most
`maxResolveActionDepth`. -/
theorem resolveActionName_terminates (action : StrMap (List String)) (name : String)
    (depth : Int) (reg : Registry) :
    (∀ fuel, (maxResolveActionDepth - depth).toNat < fuel →
      resolveFuel G action fuel name depth reg =
        some (resolveActionName G action name depth reg)) ∧
    (resolveActionName G action name depth reg).calls.head? = some (name, depth) ∧
    (∀ c, c ∈ (resolveActionName G action name depth reg).calls.tail →
      depth < c.2 ∧ c.2 ≤ maxResolveActionDepth) := by
  refine ⟨fun fuel hf => ?_, resolveActionName_calls action name depth reg⟩
  exact resolveFuel_mono action (resolveBound depth) fuel (by simp only [resolveBound]; omega)
    name depth reg _ (resolveFuel_bound (G := G) action name depth reg)

/-- C2 at the self-referential combo `loop = [loop]`, depth `-3`. -/
theorem resolveActionName_terminates_witness :
    (∀ fuel, (maxResolveActionDepth - (-3)).toNat < fuel →
      resolveFuel bits64 [("loop", ["loop"])] fuel "loop" (-3) [] =
        some (resolveActionName bits64 [("loop", ["loop"])] "loop" (-3) [])) ∧
    (resolveActionName bits64 [("loop", ["loop"])] "loop" (-3) []).calls.head? =
      some ("loop", -3) ∧
    (∀ c, c ∈ (resolveActionName bits64 [("loop", ["loop"])] "loop" (-3) []).calls.tail →
      (-3 : Int) < c.2 ∧ c.2 ≤ maxResolveActionDepth) :=
  resolveActionName_terminates [("loop", ["loop"])] "loop" (-3) []

/-! ## The registry after a failed call (C3) -/

/-- C3, as stated, fails: with the combo `c = [peco.Finish1, nosuch]` and the empty
registry, `resolveActionName("c", 0)` returns the no-such-action error of `nosuch`, and
the registry has gained `peco.Finish1`, the child resolved before the failure. -/
theorem resolveActionName_error_registry_counterexample :
    (resolveActionName bits64 [("c", ["peco.Finish1", "nosuch"])] "c" 0 []).val =
      .error (.noSuchAction "nosuch") ∧
    (resolveActionName bits64 [("c", ["peco.Finish1", "nosuch"])] "c" 0 []).nameToActions =
      [("peco.Finish1", Action.finish 1)] ∧
    (resolveActionName bits64 [("c", ["peco.Finish1", "nosuch"])] "c" 0 []).nameToActions ≠ [] :=
  ⟨rfl, rfl, fun h => by cases h⟩

/-- C3 (amended): when `resolveActionName(name, depth)` returns an error, every entry
the registry had is still there with the same action, and `name` itself is registered
after the call exactly as before it (a failed call does not register its own name); an
entry the call has added is for a name reached from `name` through child lists whose own
resolution went through (a dynamic finish name, or a combo whose children are all
registered); when `depth >= maxResolveActionDepth` or `name` is no combo key the registry
after the call is the registry before it. -/
theorem resolveActionName_error_registry (action : StrMap (List String)) (name : String)
    (depth : Int) (reg : Registry) (e : ResolveError)
    (he : (resolveActionName G action name depth reg).val = .error e) :
    (∀ k v, reg.get? k = some v →
      (resolveActionName G action name depth reg).nameToActions.get? k = some v) ∧
    (resolveActionName G action name depth reg).nameToActions.get? name = reg.get? name ∧
    (∀ k, reg.get? k = none →
      (resolveActionName G action name depth reg).nameToActions.get? k ≠ none →
      Relation.TransGen (Child action) name k ∧
      (finishStatus G k ≠ none ∨ ∃ l, action.get? k = some l ∧ ∀ c, c ∈ l →
        (resolveActionName G action name depth reg).nameToActions.get? c ≠ none)) ∧
    (depth ≥ maxResolveActionDepth ∨ action.get? name = none →
      (resolveActionName G action name depth reg).nameToActions = reg) := by
  have hname : (resolveActionName G action name depth reg).nameToActions.get? name =
      reg.get? name := by
    cases h0 : reg.get? name with
    | none => exact resolveActionName_error_keeps action name depth reg h0 e he
    | some v => exact resolveActionName_get?_of_get? action name depth reg name v h0
  refine ⟨fun k v h => resolveActionName_get?_of_get? action name depth reg k v h, hname,
    fun k h0 h1 => ⟨?_, resolveActionName_new_entry_resolved action name depth reg k h0 h1⟩,
    fun h => ?_⟩
  · have hpath := resolveActionName_new_entry (G := G) action name depth reg k h0 h1
    rcases Relation.reflTransGen_iff_eq_or_transGen.mp hpath with e' | ht
    · rw [e'] at h0 h1
      rw [hname] at h1
      exact absurd h0 h1
    · exact Relation.TransGen.mono (fun a b hab => hab.2.2) ht
  · rcases h with h | h
    · rw [resolveActionName_deep action name depth reg h]
    · exact resolveActionName_error_no_combo action name depth reg e he h

/-- C3 (amended) at the combo `c = [peco.Finish1, nosuch]`, a registry with one entry. -/
theorem resolveActionName_error_registry_witness :
    (∀ k v, StrMap.get? [("peco.Up", Action.builtin "up")] k = some v →
      (resolveActionName bits64 [("c", ["peco.Finish1", "nosuch"])] "c" 0
        [("peco.Up", Action.builtin "up")]).nameToActions.get? k = some v) ∧
    (resolveActionName bits64 [("c", ["peco.Finish1", "nosuch"])] "c" 0
      [("peco.Up", Action.builtin "up")]).nameToActions.get? "c" =
        StrMap.get? [("peco.Up", Action.builtin "up")] "c" ∧
    (∀ k, StrMap.get? [("peco.Up", Action.builtin "up")] k = none →
      (resolveActionName bits64 [("c", ["peco.Finish1", "nosuch"])] "c" 0
        [("peco.Up", Action.builtin "up")]).nameToActions.get? k ≠ none →
      Relation.TransGen (Child [("c", ["peco.Finish1", "nosuch"])]) "c" k ∧
      (finishStatus bits64 k ≠ none ∨ ∃ l,
        StrMap.get? [("c", ["peco.Finish1", "nosuch"])] k = some l ∧ ∀ c, c ∈ l →
        (resolveActionName bits64 [("c", ["peco.Finish1", "nosuch"])] "c" 0
          [("peco.Up", Action.builtin "up")]).nameToActions.get? c ≠ none)) ∧
    ((0 : Int) ≥ maxResolveActionDepth ∨
        StrMap.get? [("c", ["peco.Finish1", "nosuch"])] "c" = none →
      (resolveActionName bits64 [("c", ["peco.Finish1", "nosuch"])] "c" 0
        [("peco.Up", Action.builtin "up")]).nameToActions =
        [("peco.Up", Action.builtin "up")]) :=
  resolveActionName_error_registry [("c", ["peco.Finish1", "nosuch"])] "c" 0
    [("peco.Up", Action.builtin "up")] (.noSuchAction "nosuch") rfl

/-! ## Entries are never changed or removed (C4) -/

/-- C4: a name registered before `resolveActionName(name, depth)` is registered to the
same action after it, whether the call succeeds or fails; the same holds over any sequence
of calls, each made on the registry the previous one left. -/
theorem resolveActionName_keeps_entries (action : StrMap (List String)) (reg : Registry)
    (k : String) (v : Action) (h : reg.get? k = some v) :
    (∀ name depth, (resolveActionName G action name depth reg).nameToActions.get? k = some v) ∧
    (∀ calls, (resolveSeq G action calls reg).get? k = some v) := by
  refine ⟨fun name depth => resolveActionName_get?_of_get? action name depth reg k v h,
    fun calls => ?_⟩
  induction calls generalizing reg with
  | nil => exact h
  | cons c calls ih =>
    obtain ⟨name, depth⟩ := c
    exact ih _ (resolveActionName_get?_of_get? action name depth reg k v h)

/-- C4 at a registry that binds `peco.Up`, for a combo named `peco.Up` as well. -/
theorem resolveActionName_keeps_entries_witness :
    (∀ name depth, (resolveActionName bits64 [("peco.Up", ["peco.Finish1"])] name depth
      [("peco.Up", Action.builtin "up")]).nameToActions.get? "peco.Up" =
        some (Action.builtin "up")) ∧
    (∀ calls, (resolveSeq bits64 [("peco.Up", ["peco.Finish1"])] calls
      [("peco.Up", Action.builtin "up")]).get? "peco.Up" = some (Action.builtin "up")) :=
  resolveActionName_keeps_entries [("peco.Up", ["peco.Finish1"])]
    [("peco.Up", Action.builtin "up")] "peco.Up" (Action.builtin "up") rfl

/-! ## The depth limit comes first (C10) -/

/-- C10: at every `depth >= maxResolveActionDepth`, `resolveActionName(name, depth)`
fails with the recursion-limit error and leaves the registry as it was, whatever the
name: registered, a dynamic finish name, or a combo key. -/
theorem resolveActionName_depth_limit (action : StrMap (List String)) (name : String)
    (depth : Int) (reg : Registry) (hd : depth ≥ maxResolveActionDepth) :
    (resolveActionName G action name depth reg).val = .error (.deepRecursion name) ∧
    (resolveActionName G action name depth reg).nameToActions = reg := by
  rw [resolveActionName_deep action name depth reg hd]
  exact ⟨rfl, rfl⟩

/-- C10 at depth 100, for a registered name, a dynamic finish name and a combo key. -/
theorem resolveActionName_depth_limit_witness :
    ((resolveActionName bits64 [("c", ["peco.Up"])] "peco.Up" 100
        [("peco.Up", Action.builtin "up")]).val = .error (.deepRecursion "peco.Up") ∧
      (resolveActionName bits64 [("c", ["peco.Up"])] "peco.Up" 100
        [("peco.Up", Action.builtin "up")]).nameToActions =
          [("peco.Up", Action.builtin "up")]) ∧
    ((resolveActionName bits64 [("c", ["peco.Up"])] "peco.Finish7" 100
        [("peco.Up", Action.builtin "up")]).val = .error (.deepRecursion "peco.Finish7") ∧
      (resolveActionName bits64 [("c", ["peco.Up"])] "peco.Finish7" 100
        [("peco.Up", Action.builtin "up")]).nameToActions =
          [("peco.Up", Action.builtin "up")]) ∧
    ((resolveActionName bits64 [("c", ["peco.Up"])] "c" 100
        [("peco.Up", Action.builtin "up")]).val = .error (.deepRecursion "c") ∧
      (resolveActionName bits64 [("c", ["peco.Up"])] "c" 100
        [("peco.Up", Action.builtin "up")]).nameToActions =
          [("peco.Up", Action.builtin "up")]) :=
  ⟨resolveActionName_depth_limit _ "peco.Up" 100 _ (by decide),
   resolveActionName_depth_limit _ "peco.Finish7" 100 _ (by decide),
   resolveActionName_depth_limit _ "c" 100 _ (by decide)⟩

/-! ## resolveActionName: the branches without children -/

theorem resolveActionName_unknown (action : StrMap (List String)) (name : String)
    (depth : Int) (reg : Registry) (hd : depth < maxResolveActionDepth)
    (hreg : reg.get? name = none) (hfin : finishStatus G name = none)
    (hact : action.get? name = none) :
    resolveActionName G action name depth reg =
      ⟨.error (.noSuchAction name), reg, [(name, depth)]⟩ := by
  have h := resolveFuel_bound (G := G) action name depth reg
  simp only [resolveBound] at h
  unfold resolveFuel at h
  simp only [not_le.mpr hd, ge_iff_le, if_false, hreg, hfin, hact, Option.some.injEq] at h
  exact h.symm

theorem resolveActionName_registered (action : StrMap (List String)) (name : String)
    (depth : Int) (reg : Registry) (v : Action) (hd : depth < maxResolveActionDepth)
    (hreg : reg.get? name = some v) :
    resolveActionName G action name depth reg = ⟨.ok v, reg, [(name, depth)]⟩ := by
  have h := resolveFuel_bound (G := G) action name depth reg
  simp only [resolveBound] at h
  unfold resolveFuel at h
  simp only [not_le.mpr hd, ge_iff_le, if_false, hreg, Option.some.injEq] at h
  exact h.symm

/-! ## ApplyKeybinding: the merged table -/

theorem StrMap.get?_eq_none_of_not_mem {α : Type} (m : StrMap α) (k : String)
    (h : k ∉ m.map Prod.fst) : m.get? k = none := by
  induction m with
  | nil => rfl
  | cons p m ih =>
    obtain ⟨a, b⟩ := p
    simp only [List.map_cons, List.mem_cons, not_or] at h
    simp [StrMap.get?, h.1, ih h.2]

theorem copyDefaults_foldl_get? (d : StrMap Action) (hd : (d.map Prod.fst).Nodup) :
    ∀ (acc : StrMap Action) (k : String),
      (d.foldl (fun kb e => kb.set e.1 e.2) acc).get? k =
        match d.get? k with
        | some v => some v
        | none => acc.get? k := by
  induction d with
  | nil => intro acc k; rfl
  | cons p d ih =>
    obtain ⟨a, b⟩ := p
    intro acc k
    simp only [List.map_cons, List.nodup_cons] at hd
    simp only [List.foldl_cons]
    rw [ih hd.2]
    by_cases hk : k = a
    · subst hk
      simp [StrMap.get?_eq_none_of_not_mem d k hd.1, StrMap.get?_set, StrMap.get?]
    · have h1 : StrMap.get? ((a, b) :: d) k = StrMap.get? d k := by simp [StrMap.get?, hk]
      rw [h1, StrMap.get?_set, if_neg hk]

/-- The copy of the defaults reads as the defaults. -/
theorem copyDefaults_get? (d : StrMap Action) (hd : (d.map Prod.fst).Nodup) (k : String) :
    (copyDefaults d).get? k = d.get? k := by
  unfold copyDefaults
  rw [copyDefaults_foldl_get? d hd]
  cases d.get? k <;> rfl

theorem mungeStep_kb_get?_of_ne (action : StrMap (List String)) (st : Munge)
    (entry : String × String) (k : String) (h : k ≠ entry.1) :
    (mungeStep G action st entry).kb.get? k = st.kb.get? k := by
  unfold mungeStep
  split
  · simp [StrMap.get?_delete, h]
  · dsimp only
    cases (resolveActionName G action entry.2 0 st.nameToActions).val with
    | error err => rfl
    | ok v => simp [StrMap.get?_set, h]

/-- Entries for other keys leave the table at `k` as it is. -/
theorem mungeConfig_kb_get?_of_not_mem (action : StrMap (List String)) (config : StrMap String)
    (k : String) (h : k ∉ config.map Prod.fst) :
    ∀ st : Munge, (mungeConfig G action config st).kb.get? k = st.kb.get? k := by
  induction config with
  | nil => intro st; rfl
  | cons e config ih =>
    intro st
    simp only [List.map_cons, List.mem_cons, not_or] at h
    simp only [mungeConfig, List.foldl_cons] at ih ⊢
    rw [ih h.2, mungeStep_kb_get?_of_ne action st e k h.1]

theorem mungeConfig_append (action : StrMap (List String)) (c1 c2 : StrMap String)
    (st : Munge) :
    mungeConfig G action (c1 ++ c2) st = mungeConfig G action c2 (mungeConfig G action c1 st) := by
  simp [mungeConfig, List.foldl_append]

theorem mungeConfig_cons (action : StrMap (List String)) (e : String × String)
    (c : StrMap String) (st : Munge) :
    mungeConfig G action (e :: c) st = mungeConfig G action c (mungeStep G action st e) := by
  simp [mungeConfig]

/-- The turn of the loop for an entry whose name fails to resolve. -/
theorem mungeStep_error (action : StrMap (List String)) (st : Munge) (key name : String)
    (e : ResolveError) (hname : name ≠ "-")
    (hfail : (resolveActionName G action name 0 st.nameToActions).val = .error e) :
    mungeStep G action st (key, name) =
      { st with
        nameToActions := (resolveActionName G action name 0 st.nameToActions).nameToActions,
        stderr := st.stderr ++ [e.Error ++ "\n"] } := by
  unfold mungeStep
  simp only [hname, if_false, hfail]

/-! ## A config entry that fails to resolve (C5) -/

/-- C5: in `ApplyKeybinding`, let the config loop reach an entry `(key, name)` whose
`name` is not `"-"` and fails to resolve at that point. The turn leaves the working table
as it was (it writes the diagnostic and keeps what the failed call registered), the loop
goes on with the remaining entries from there, and the effective table reads at `key` as
the defaults do: the default action when the defaults bind `key`, nothing otherwise. -/
theorem ApplyKeybinding_failed_entry {σ : Type} (K : KeyseqPkg σ)
    (defaultKeyBinding : StrMap Action) (km : Keymap σ) (reg : Registry)
    (before after : StrMap String) (key name : String) (e : ResolveError)
    (hdef : (defaultKeyBinding.map Prod.fst).Nodup)
    (hcfg : km.Config = before ++ (key, name) :: after)
    (hnodup : (km.Config.map Prod.fst).Nodup)
    (hname : name ≠ "-")
    (hfail : (resolveActionName G km.Action name 0
      (mungeConfig G km.Action before
        ⟨copyDefaults defaultKeyBinding, reg, []⟩).nameToActions).val = .error e) :
    (mungeStep G km.Action
        (mungeConfig G km.Action before ⟨copyDefaults defaultKeyBinding, reg, []⟩)
        (key, name)).kb =
      (mungeConfig G km.Action before ⟨copyDefaults defaultKeyBinding, reg, []⟩).kb ∧
    mungeConfig G km.Action km.Config ⟨copyDefaults defaultKeyBinding, reg, []⟩ =
      mungeConfig G km.Action after
        { mungeConfig G km.Action before ⟨copyDefaults defaultKeyBinding, reg, []⟩ with
          nameToActions := (resolveActionName G km.Action name 0
            (mungeConfig G km.Action before
              ⟨copyDefaults defaultKeyBinding, reg, []⟩).nameToActions).nameToActions,
          stderr :=
            (mungeConfig G km.Action before ⟨copyDefaults defaultKeyBinding, reg, []⟩).stderr ++
              [e.Error ++ "\n"] } ∧
    (ApplyKeybinding G K defaultKeyBinding km reg).kb.get? key =
      defaultKeyBinding.get? key := by
  have hstep := mungeStep_error (G := G) km.Action
    (mungeConfig G km.Action before ⟨copyDefaults defaultKeyBinding, reg, []⟩) key name e
    hname hfail
  have hrun : mungeConfig G km.Action km.Config ⟨copyDefaults defaultKeyBinding, reg, []⟩ =
      mungeConfig G km.Action after (mungeStep G km.Action
        (mungeConfig G km.Action before ⟨copyDefaults defaultKeyBinding, reg, []⟩)
        (key, name)) := by
    rw [hcfg, mungeConfig_append, mungeConfig_cons]
  rw [hcfg, List.map_append, List.map_cons, List.nodup_append] at hnodup
  obtain ⟨_, hn2, hdisj⟩ := hnodup
  have hbefore : key ∉ before.map Prod.fst := fun h =>
    hdisj h (List.mem_cons_self _ _)
  have hafter : key ∉ after.map Prod.fst := (List.nodup_cons.mp hn2).1
  refine ⟨by rw [hstep], by rw [hrun, hstep], ?_⟩
  show (mungeConfig G km.Action km.Config ⟨copyDefaults defaultKeyBinding, reg, []⟩).kb.get? key
    = defaultKeyBinding.get? key
  rw [hrun, mungeConfig_kb_get?_of_not_mem km.Action after key hafter, hstep]
  show (mungeConfig G km.Action before ⟨copyDefaults defaultKeyBinding, reg, []⟩).kb.get? key
    = defaultKeyBinding.get? key
  rw [mungeConfig_kb_get?_of_not_mem km.Action before key hbefore]
  exact copyDefaults_get? defaultKeyBinding hdef key

/-- C5 at the config `b = peco.Finish3, a = no.such.action, c = -` over defaults that
bind `a`: the entry for `a` fails to resolve and `a` keeps its default. -/
theorem ApplyKeybinding_failed_entry_witness :
    (resolveActionName bits64 [] "no.such.action" 0
      (mungeConfig bits64 [] [("b", "peco.Finish3")]
        ⟨copyDefaults [("a", Action.builtin "up")], [], []⟩).nameToActions).val =
      .error (.noSuchAction "no.such.action") ∧
    (ApplyKeybinding bits64 recordingKeyseq [("a", Action.builtin "up")]
      ⟨[("b", "peco.Finish3"), ("a", "no.such.action"), ("c", "-")], [], []⟩ []).kb.get? "a" =
      StrMap.get? [("a", Action.builtin "up")] "a" :=
  ⟨rfl, (ApplyKeybinding_failed_entry recordingKeyseq [("a", Action.builtin "up")]
    ⟨[("b", "peco.Finish3"), ("a", "no.such.action"), ("c", "-")], [], []⟩ []
    [("b", "peco.Finish3")] [("c", "-")] "a" "no.such.action"
    (.noSuchAction "no.such.action") (by decide) rfl (by decide) (by decide) rfl).2.2⟩

/-! ## The partial-failure scenario (C6) -/

/-- C6, as stated, fails: with the config `C-x = -, C-y = no.such.action` and defaults
that bind `C-y`, the effective table still binds `C-y`, to the default action. -/
theorem ApplyKeybinding_partial_failure_counterexample :
    (ApplyKeybinding bits64 recordingKeyseq
      [("C-x", Action.builtin "peco.Cancel"), ("C-y", Action.builtin "peco.Yank")]
      ⟨[("C-x", "-"), ("C-y", "no.such.action")], [], []⟩ []).kb.get? "C-y" =
      some (Action.builtin "peco.Yank") ∧
    (ApplyKeybinding bits64 recordingKeyseq
      [("C-x", Action.builtin "peco.Cancel"), ("C-y", Action.builtin "peco.Yank")]
      ⟨[("C-x", "-"), ("C-y", "no.such.action")], [], []⟩ []).kb.get? "C-x" = none :=
  ⟨rfl, rfl⟩

/-- C6 (amended): for the config `C-x = -, C-y = no.such.action`, visited in either
order, with `no.such.action` neither registered nor a combo key, the effective table has
no binding for `C-x`, and at `C-y` it reads as the defaults do: the entry that fails to
resolve leaves the default for `C-y` in place, and `C-y` is unbound only when the defaults
do not bind it. -/
theorem ApplyKeybinding_partial_failure {σ : Type} (K : KeyseqPkg σ)
    (defaultKeyBinding : StrMap Action) (km : Keymap σ) (reg : Registry)
    (hdef : (defaultKeyBinding.map Prod.fst).Nodup)
    (hcfg : km.Config = [("C-x", "-"), ("C-y", "no.such.action")] ∨
      km.Config = [("C-y", "no.such.action"), ("C-x", "-")])
    (hreg : reg.get? "no.such.action" = none)
    (hact : km.Action.get? "no.such.action" = none) :
    (ApplyKeybinding G K defaultKeyBinding km reg).kb.get? "C-x" = none ∧
    (ApplyKeybinding G K defaultKeyBinding km reg).kb.get? "C-y" =
      defaultKeyBinding.get? "C-y" := by
  have hres := resolveActionName_unknown (G := G) km.Action "no.such.action" 0 reg (by decide)
    hreg (finishStatus_outside_pattern "no.such.action" (by decide)) hact
  have hxy : ("C-y" : String) ≠ "C-x" := by decide
  rcases hcfg with h | h
  · simp only [ApplyKeybinding, h, mungeConfig, List.foldl_cons, List.foldl_nil, mungeStep,
      if_true, hres]
    simp [StrMap.get?_delete, hxy, copyDefaults_get? defaultKeyBinding hdef]
  · simp only [ApplyKeybinding, h, mungeConfig, List.foldl_cons, List.foldl_nil, mungeStep,
      hres]
    simp [StrMap.get?_delete, hxy, copyDefaults_get? defaultKeyBinding hdef]

/-- C6 (amended) at defaults that bind both keys. -/
theorem ApplyKeybinding_partial_failure_witness :
    (ApplyKeybinding bits64 recordingKeyseq
      [("C-x", Action.builtin "peco.Cancel"), ("C-y", Action.builtin "peco.Yank")]
      ⟨[("C-y", "no.such.action"), ("C-x", "-")], [], []⟩ []).kb.get? "C-x" = none ∧
    (ApplyKeybinding bits64 recordingKeyseq
      [("C-x", Action.builtin "peco.Cancel"), ("C-y", Action.builtin "peco.Yank")]
      ⟨[("C-y", "no.such.action"), ("C-x", "-")], [], []⟩ []).kb.get? "C-y" =
      StrMap.get? [("C-x", Action.builtin "peco.Cancel"), ("C-y", Action.builtin "peco.Yank")]
        "C-y" :=
  ApplyKeybinding_partial_failure recordingKeyseq
    [("C-x", Action.builtin "peco.Cancel"), ("C-y", Action.builtin "peco.Yank")]
    ⟨[("C-y", "no.such.action"), ("C-x", "-")], [], []⟩ [] (by decide) (Or.inr rfl) rfl rfl

/-! ## Combined actions (C8) -/

/-- What a call on an unregistered, non-dynamic combo returns, read off the run of its
children. -/
theorem resolveActionName_combo_run (action : StrMap (List String)) (name : String)
    (depth : Int) (reg : Registry) (l : List String)
    (hd : depth < maxResolveActionDepth) (hreg : reg.get? name = none)
    (hfin : finishStatus G name = none) (hact : action.get? name = some l) :
    (∀ actions reg', ResolvedInOrder G action (depth + 1) reg l actions reg' →
      (resolveActionName G action name depth reg).val = .ok (makeCombinedAction actions) ∧
      (resolveActionName G action name depth reg).nameToActions =
        reg'.set name (makeCombinedAction actions)) ∧
    (∀ err reg', FirstFailure G action (depth + 1) reg l err reg' →
      (resolveActionName G action name depth reg).val = .error err ∧
      (resolveActionName G action name depth reg).nameToActions = reg') := by
  have key := resolveActionName_induction (G := G) action
    (P := fun name depth reg r => ∀ l, depth < maxResolveActionDepth →
      reg.get? name = none → finishStatus G name = none → action.get? name = some l →
      (∀ actions reg', ResolvedInOrder G action (depth + 1) reg l actions reg' →
        r.val = .ok (makeCombinedAction actions) ∧
        r.nameToActions = reg'.set name (makeCombinedAction actions)) ∧
      (∀ err reg', FirstFailure G action (depth + 1) reg l err reg' →
        r.val = .error err ∧ r.nameToActions = reg'))
    (Q := fun l depth acc reg rs =>
      (∀ actions reg', ResolvedInOrder G action depth reg l actions reg' →
        rs.val = .ok (acc ++ actions) ∧ rs.nameToActions = reg') ∧
      (∀ err reg', FirstFailure G action depth reg l err reg' →
        rs.val = .error err ∧ rs.nameToActions = reg'))
    (by intro name depth reg hge l hd; exact absurd hge (not_le.mpr hd))
    (by intro name depth reg v _ hv l _ hreg; rw [hreg] at hv; cases hv)
    (by intro name depth reg n _ _ hn l _ _ hfin; rw [hfin] at hn; cases hn)
    (by
      intro name depth reg l rs err _ _ _ hact hq hv l' _ _ _ hact'
      rw [hact] at hact'
      cases hact'
      refine ⟨fun actions reg' h => ?_, fun err' reg' h => ?_⟩
      · have := (hq.1 actions reg' h).1
        rw [hv] at this; cases this
      · have := hq.2 err' reg' h
        rw [hv] at this
        have h1 : err = err' := by simpa using this.1
        subst h1
        exact ⟨rfl, this.2⟩)
    (by
      intro name depth reg l rs actions _ _ _ hact hq hv l' _ _ _ hact'
      rw [hact] at hact'
      cases hact'
      refine ⟨fun actions' reg' h => ?_, fun err' reg' h => ?_⟩
      · have := hq.1 actions' reg' h
        rw [hv] at this
        simp only [List.nil_append, Except.ok.injEq] at this
        rw [this.1, this.2]
        exact ⟨rfl, rfl⟩
      · have := (hq.2 err' reg' h).1
        rw [hv] at this; cases this)
    (by intro name depth reg _ _ _ hact l _ _ _ hact'; rw [hact] at hact'; cases hact')
    (by
      intro depth acc reg
      refine ⟨fun actions reg' h => ?_, fun err reg' h => ?_⟩
      · cases h; simp
      · cases h)
    (by
      intro c l depth acc reg r err hr _ hv
      refine ⟨fun actions reg' h => ?_, fun err' reg' h => ?_⟩
      · cases h with
        | cons _ _ _ a _ _ hc _ => rw [← hr, hv] at hc; cases hc
      · cases h with
        | here _ _ _ _ hc =>
          rw [← hr, hv] at hc
          cases hc
          exact ⟨rfl, by rw [hr]⟩
        | later _ _ _ a _ _ hc _ => rw [← hr, hv] at hc; cases hc)
    (by
      intro c l depth acc reg r child rs hr _ hv hq
      refine ⟨fun actions reg' h => ?_, fun err' reg' h => ?_⟩
      · cases h with
        | cons _ _ _ a actions' _ hc hl =>
          rw [← hr, hv] at hc
          cases hc
          rw [← hr] at hl
          have := hq.1 actions' reg' hl
          simpa using this
      · cases h with
        | here _ _ _ _ hc => rw [← hr, hv] at hc; cases hc
        | later _ _ _ a _ _ hc hl =>
          rw [← hr] at hl
          exact hq.2 err' reg' hl)
    name depth reg
  exact key l hd hreg hfin hact

/-- C8: let `name` be unregistered, not a dynamic finish name, and a combo key with child
list `l`, and let `depth < maxResolveActionDepth`. If the children all resolve at
`depth + 1`, in list order, each on the registry the previous one left,
`resolveActionName(name, depth)` returns the combined action of the children's actions in
the listed order and registers it under `name` on top of the registry the last child left.
If some child fails, it returns the error of the first child that fails, the registry is
the one this child's call left, and `name` is not registered. -/
theorem resolveActionName_combo (action : StrMap (List String)) (name : String)
    (depth : Int) (reg : Registry) (l : List String)
    (hd : depth < maxResolveActionDepth) (hreg : reg.get? name = none)
    (hfin : finishStatus G name = none) (hact : action.get? name = some l) :
    (∀ actions reg', ResolvedInOrder G action (depth + 1) reg l actions reg' →
      (resolveActionName G action name depth reg).val = .ok (makeCombinedAction actions) ∧
      (resolveActionName G action name depth reg).nameToActions =
        reg'.set name (makeCombinedAction actions) ∧
      (resolveActionName G action name depth reg).nameToActions.get? name =
        some (makeCombinedAction actions)) ∧
    (∀ err reg', FirstFailure G action (depth + 1) reg l err reg' →
      (resolveActionName G action name depth reg).val = .error err ∧
      (resolveActionName G action name depth reg).nameToActions = reg' ∧
      (resolveActionName G action name depth reg).nameToActions.get? name = none) := by
  obtain ⟨hok, herr⟩ := resolveActionName_combo_run (G := G) action name depth reg l hd hreg hfin hact
  refine ⟨fun actions reg' h => ?_, fun err reg' h => ?_⟩
  · obtain ⟨h1, h2⟩ := hok actions reg' h
    exact ⟨h1, h2, resolveActionName_ok_registered action name depth reg _ h1⟩
  · obtain ⟨h1, h2⟩ := herr err reg' h
    exact ⟨h1, h2, resolveActionName_error_keeps action name depth reg hreg err h1⟩

/-- C8 at the combo `both = [peco.Finish1, peco.Finish2]`, which resolves, and at the
combo `bad = [peco.Finish1, nosuch, peco.Finish2]`, whose second child fails. -/
theorem resolveActionName_combo_witness :
    ((resolveActionName bits64 [("both", ["peco.Finish1", "peco.Finish2"])] "both" 0 []).val =
        .ok (makeCombinedAction [Action.finish 1, Action.finish 2]) ∧
      (resolveActionName bits64 [("both", ["peco.Finish1", "peco.Finish2"])] "both" 0
          []).nameToActions =
        StrMap.set [("peco.Finish2", Action.finish 2), ("peco.Finish1", Action.finish 1)]
          "both" (makeCombinedAction [Action.finish 1, Action.finish 2]) ∧
      (resolveActionName bits64 [("both", ["peco.Finish1", "peco.Finish2"])] "both" 0
          []).nameToActions.get? "both" =
        some (makeCombinedAction [Action.finish 1, Action.finish 2])) ∧
    ((resolveActionName bits64 [("bad", ["peco.Finish1", "nosuch", "peco.Finish2"])] "bad" 0 []).val =
        .error (.noSuchAction "nosuch") ∧
      (resolveActionName bits64 [("bad", ["peco.Finish1", "nosuch", "peco.Finish2"])] "bad" 0
          []).nameToActions = [("peco.Finish1", Action.finish 1)] ∧
      (resolveActionName bits64 [("bad", ["peco.Finish1", "nosuch", "peco.Finish2"])] "bad" 0
          []).nameToActions.get? "bad" = none) :=
  ⟨(resolveActionName_combo [("both", ["peco.Finish1", "peco.Finish2"])] "both" 0 []
      ["peco.Finish1", "peco.Finish2"] (by decide) rfl (by decide) rfl).1
      [Action.finish 1, Action.finish 2]
      [("peco.Finish2", Action.finish 2), ("peco.Finish1", Action.finish 1)]
      (.cons _ _ _ _ _ _ rfl (.cons _ _ _ _ _ _ rfl (.nil _))),
   (resolveActionName_combo [("bad", ["peco.Finish1", "nosuch", "peco.Finish2"])] "bad" 0 []
      ["peco.Finish1", "nosuch", "peco.Finish2"] (by decide) rfl (by decide) rfl).2
      (.noSuchAction "nosuch") [("peco.Finish1", Action.finish 1)]
      (.later _ _ _ (Action.finish 1) _ _ rfl (.here _ _ _ _ rfl))⟩

/-! ## A key sequence typed to its end (C9) -/

theorem outcomes_append {σ : Type} (K : KeyseqPkg σ) (evs evs' : List Event) :
    ∀ k : σ, outcomes K k (evs ++ evs') =
      outcomes K k evs ++ outcomes K (acceptKeys K k evs) evs' := by
  induction evs with
  | nil => intro k; rfl
  | cons ev evs ih => intro k; simp [outcomes, acceptKeys, ih]

theorem outcomes_length {σ : Type} (K : KeyseqPkg σ) (evs : List Event) :
    ∀ k : σ, (outcomes K k evs).length = evs.length := by
  induction evs with
  | nil => intro k; rfl
  | cons ev evs ih => intro k; simp [outcomes, ih]

theorem outcomes_take {σ : Type} (K : KeyseqPkg σ) (evs : List Event) :
    ∀ (n : Nat) (k : σ), outcomes K k (evs.take n) = (outcomes K k evs).take n := by
  induction evs with
  | nil => intro n k; simp [outcomes]
  | cons ev evs ih =>
    intro n k
    cases n with
    | zero => simp [outcomes]
    | succ n => simp [outcomes, ih]

/-- One turn of the event loop when the matcher reports `ErrInSequence`. -/
theorem dispatch_inSequence {σ β : Type} (K : KeyseqPkg σ) (P : Primitives β)
    (km : Keymap σ) (i : Input β) (ev : Event) (s : String)
    (hs : K.EventToString ev = .ok s)
    (hout : (K.AcceptKey km.Keyseq (eventKey ev)).1 = .error .ErrInSequence) :
    dispatch K P (km, i) ev =
      ({ km with Keyseq := (K.AcceptKey km.Keyseq (eventKey ev)).2 },
        { i with
          currentKeySeq := i.currentKeySeq ++ [s],
          status := i.status ++ [⟨joinSpace (i.currentKeySeq ++ [s]), none⟩] }) := by
  simp [dispatch, Handler, hout, wrapRememberSequence, Action.Execute, rememberStep, hs,
    Input.SendStatusMsg, doNothing]

/-- One turn of the event loop when the matcher reports an action. -/
theorem dispatch_resolved {σ β : Type} (K : KeyseqPkg σ) (P : Primitives β)
    (km : Keymap σ) (i : Input β) (ev : Event) (s : String) (A : Action)
    (hs : K.EventToString ev = .ok s)
    (hout : (K.AcceptKey km.Keyseq (eventKey ev)).1 = .ok A) :
    dispatch K P (km, i) ev =
      ({ km with Keyseq := (K.AcceptKey km.Keyseq (eventKey ev)).2 },
        A.Execute P K.EventToString
          { i with
            currentKeySeq := [],
            status := i.status ++
              [⟨joinSpace (i.currentKeySeq ++ [s]), some (500 * Millisecond)⟩] } ev) := by
  simp [dispatch, Handler, hout, wrapClearSequence, Action.Execute, clearStep, hs,
    Input.SendStatusMsgAndClear]

/-- The event loop over events that the matcher all reports in sequence. -/
theorem dispatch_run_inSequence {σ β : Type} (K : KeyseqPkg σ) (P : Primitives β)
    (evs : List Event) :
    ∀ (ss : List String) (km : Keymap σ) (i : Input β),
      evs.map K.EventToString = ss.map Except.ok →
      outcomes K km.Keyseq evs = List.replicate evs.length (.error .ErrInSequence) →
      List.foldl (dispatch K P) (km, i) evs =
        ({ km with Keyseq := acceptKeys K km.Keyseq evs },
          { i with
            currentKeySeq := i.currentKeySeq ++ ss,
            status := i.status ++ (List.range ss.length).map
              (fun j => ⟨joinSpace (i.currentKeySeq ++ ss.take (j + 1)), none⟩) }) := by
  induction evs with
  | nil =>
    intro ss km i hss _
    have : ss = [] := by
      cases ss with
      | nil => rfl
      | cons a l => simp at hss
    subst this
    simp [acceptKeys]
  | cons ev evs ih =>
    intro ss km i hss hout
    cases ss with
    | nil => simp at hss
    | cons s ss =>
      simp only [List.map_cons, List.cons.injEq] at hss
      simp only [outcomes, List.length_cons, List.replicate_succ, List.cons.injEq] at hout
      rw [List.foldl_cons, dispatch_inSequence K P km i ev s hss.1 hout.1]
      rw [ih ss _ _ hss.2 hout.2]
      simp only [acceptKeys, List.length_cons, List.range_succ_eq_map, List.map_cons,
        List.map_map, List.append_assoc, List.singleton_append, List.take_succ_cons,
        List.take_zero, Prod.mk.injEq, true_and]
      congr 1

/-- C9: start with an empty in-progress sequence and let the events `evs` then `ev` come
in, with display strings `ss` and `s`, the matcher reporting `ErrInSequence` for each of
`evs` and the action `A` for `ev`. Executing what `Handler` returns, event after event:
after the first `k` events the in-progress sequence is the first `k` strings and the status
bar has been sent, for each event so far, the strings up to it joined by single spaces,
without auto-clear, and nothing else has changed; on the last event the status bar is sent
all the strings joined by single spaces with a 500 ms auto-clear, the in-progress sequence
is emptied, and then `A` is executed with `ev`. -/
theorem Handler_sequence {σ β : Type} (K : KeyseqPkg σ) (P : Primitives β)
    (km : Keymap σ) (i : Input β) (evs : List Event) (ev : Event) (ss : List String)
    (s : String) (A : Action)
    (hempty : i.currentKeySeq = [])
    (hss : evs.map K.EventToString = ss.map Except.ok)
    (hs : K.EventToString ev = .ok s)
    (hout : outcomes K km.Keyseq (evs ++ [ev]) =
      List.replicate evs.length (.error .ErrInSequence) ++ [.ok A]) :
    (∀ k, k ≤ evs.length →
      (List.foldl (dispatch K P) (km, i) (evs.take k)).2 =
        { i with
          currentKeySeq := ss.take k,
          status := i.status ++ (List.range k).map
            (fun j => ⟨joinSpace (ss.take (j + 1)), none⟩) }) ∧
    (List.foldl (dispatch K P) (km, i) (evs ++ [ev])).2 =
      A.Execute P K.EventToString
        { i with
          currentKeySeq := [],
          status := i.status ++
            (List.range evs.length).map (fun j => ⟨joinSpace (ss.take (j + 1)), none⟩) ++
            [⟨joinSpace (ss ++ [s]), some (500 * Millisecond)⟩] } ev := by
  have hlen : ss.length = evs.length := by
    have := congrArg List.length hss
    simpa using this.symm
  rw [outcomes_append] at hout
  have hout1 : outcomes K km.Keyseq evs =
      List.replicate evs.length (.error .ErrInSequence) := by
    have := List.append_inj_left hout (by simp [outcomes_length])
    exact this
  have hout2 : outcomes K (acceptKeys K km.Keyseq evs) [ev] = [.ok A] := by
    have := List.append_inj_right hout (by simp [outcomes_length])
    exact this
  constructor
  · intro k hk
    have hss' : (evs.take k).map K.EventToString = (ss.take k).map Except.ok := by
      rw [List.map_take, List.map_take, hss]
    have hout' : outcomes K km.Keyseq (evs.take k) =
        List.replicate (evs.take k).length (.error .ErrInSequence) := by
      rw [outcomes_take, hout1, List.take_replicate, List.length_take]
    rw [dispatch_run_inSequence K P (evs.take k) (ss.take k) km i hss' hout']
    have hlk : (ss.take k).length = k := by
      rw [List.length_take, hlen]; exact Nat.min_eq_left hk
    simp only [hempty, List.nil_append, hlk]
    congr 2
    apply List.map_congr_left
    intro j hj
    have hj' : j + 1 ≤ k := Nat.succ_le_of_lt (List.mem_range.mp hj)
    rw [List.take_take, Nat.min_eq_left hj']
  · rw [List.foldl_append, dispatch_run_inSequence K P evs ss km i hss hout1]
    simp only [outcomes, List.cons.injEq, and_true] at hout2
    simp only [List.foldl_cons, List.foldl_nil]
    rw [dispatch_resolved K P _ _ ev s A hs hout2]
    simp only [hempty, List.nil_append, hlen, List.append_assoc]

/-- C9 at the sequences `a` and `a b`: the keys `a` then `b` show `a`, then `a b` with the
500 ms auto-clear, empty the in-progress sequence and run `Bar` once. -/
theorem Handler_sequence_witness :
    (List.foldl (dispatch abKeyseq recordingPrimitives)
        (⟨[], [], 0⟩, ⟨[], [], []⟩) [⟨0, 0, 97⟩]).2 =
      ⟨["a"], [⟨"a", none⟩], []⟩ ∧
    (List.foldl (dispatch abKeyseq recordingPrimitives)
        (⟨[], [], 0⟩, ⟨[], [], []⟩) [⟨0, 0, 97⟩, ⟨0, 0, 98⟩]).2 =
      ⟨[], [⟨"a", none⟩, ⟨"a b", some 500000000⟩], ["Bar"]⟩ :=
  ⟨(Handler_sequence abKeyseq recordingPrimitives ⟨[], [], 0⟩ ⟨[], [], []⟩
      [⟨0, 0, 97⟩] ⟨0, 0, 98⟩ ["a"] "b" (Action.builtin "Bar") rfl rfl rfl rfl).1 1
      (le_refl _),
   (Handler_sequence abKeyseq recordingPrimitives ⟨[], [], 0⟩ ⟨[], [], []⟩
      [⟨0, 0, 97⟩] ⟨0, 0, 98⟩ ["a"] "b" (Action.builtin "Bar") rfl rfl rfl rfl).2⟩

/-! ## ApplyKeybinding: the registry only grows -/

theorem mungeStep_get?_of_get? (action : StrMap (List String)) (st : Munge)
    (e : String × String) (k : String) (v : Action) (h : st.nameToActions.get? k = some v) :
    (mungeStep G action st e).nameToActions.get? k = some v := by
  unfold mungeStep
  split
  · exact h
  · dsimp only
    have := resolveActionName_get?_of_get? (G := G) action e.2 0 st.nameToActions k v h
    cases (resolveActionName G action e.2 0 st.nameToActions).val with
    | error err => exact this
    | ok v => exact this

theorem mungeConfig_get?_of_get? (action : StrMap (List String)) (config : StrMap String) :
    ∀ (st : Munge) (k : String) (v : Action), st.nameToActions.get? k = some v →
      (mungeConfig G action config st).nameToActions.get? k = some v := by
  induction config with
  | nil => intro st k v h; exact h
  | cons e config ih =>
    intro st k v h
    rw [mungeConfig_cons]
    exact ih _ k v (mungeStep_get?_of_get? action st e k v h)

/-! ## Maps: keys -/

theorem StrMap.not_mem_of_get?_eq_none {α : Type} (m : StrMap α) (k : String)
    (h : m.get? k = none) : k ∉ m.map Prod.fst := by
  induction m with
  | nil => simp
  | cons p m ih =>
    obtain ⟨a, b⟩ := p
    by_cases hk : k = a
    · simp [StrMap.get?, hk] at h
    · simp only [StrMap.get?, hk, if_false] at h
      simp [hk, ih h]

theorem StrMap.delete_of_get?_eq_none {α : Type} (m : StrMap α) (k : String)
    (h : m.get? k = none) : m.delete k = m := by
  have hk := StrMap.not_mem_of_get?_eq_none m k h
  unfold StrMap.delete
  rw [List.filter_eq_self]
  intro p hp
  have : p.1 ≠ k := fun e => hk (e ▸ List.mem_map_of_mem Prod.fst hp)
  simp [this]

theorem StrMap.delete_keys_nodup {α : Type} (m : StrMap α) (k : String)
    (h : (m.map Prod.fst).Nodup) : ((m.delete k).map Prod.fst).Nodup := by
  unfold StrMap.delete
  exact (List.filter_sublist m).map Prod.fst |>.nodup h

theorem StrMap.set_keys_nodup {α : Type} (m : StrMap α) (k : String) (v : α)
    (h : (m.map Prod.fst).Nodup) : ((m.set k v).map Prod.fst).Nodup := by
  unfold StrMap.set
  rw [List.map_cons, List.nodup_cons]
  refine ⟨?_, StrMap.delete_keys_nodup m k h⟩
  apply StrMap.not_mem_of_get?_eq_none
  simp [StrMap.get?_delete]

theorem StrMap.get?_eq_some_iff_mem {α : Type} (m : StrMap α) (h : (m.map Prod.fst).Nodup)
    (k : String) (v : α) : m.get? k = some v ↔ (k, v) ∈ m := by
  induction m with
  | nil => simp [StrMap.get?]
  | cons p m ih =>
    obtain ⟨a, b⟩ := p
    simp only [List.map_cons, List.nodup_cons] at h
    by_cases hk : k = a
    · subst hk
      simp only [StrMap.get?, if_true, Option.some.injEq, List.mem_cons, Prod.mk.injEq, true_and]
      constructor
      · intro e; exact Or.inl e.symm
      · rintro (e | hm)
        · exact e.symm
        · exact absurd (List.mem_map_of_mem Prod.fst hm) h.1
    · simp only [StrMap.get?, hk, if_false, List.mem_cons, Prod.mk.injEq, false_and, false_or]
      exact ih h.2

theorem copyDefaults_keys_nodup (d : StrMap Action) :
    ((copyDefaults d).map Prod.fst).Nodup := by
  unfold copyDefaults
  have : ∀ acc : StrMap Action, (acc.map Prod.fst).Nodup →
      ((d.foldl (fun kb e => kb.set e.1 e.2) acc).map Prod.fst).Nodup := by
    induction d with
    | nil => intro acc h; exact h
    | cons e d ih =>
      intro acc h
      exact ih _ (StrMap.set_keys_nodup acc e.1 e.2 h)
  exact this [] List.nodup_nil

theorem mungeStep_keys_nodup (action : StrMap (List String)) (st : Munge)
    (e : String × String) (h : (st.kb.map Prod.fst).Nodup) :
    ((mungeStep G action st e).kb.map Prod.fst).Nodup := by
  unfold mungeStep
  split
  · exact StrMap.delete_keys_nodup st.kb e.1 h
  · dsimp only
    cases (resolveActionName G action e.2 0 st.nameToActions).val with
    | error err => exact h
    | ok v => exact StrMap.set_keys_nodup st.kb e.1 v h

theorem mungeConfig_keys_nodup (action : StrMap (List String)) (config : StrMap String) :
    ∀ st : Munge, (st.kb.map Prod.fst).Nodup →
      ((mungeConfig G action config st).kb.map Prod.fst).Nodup := by
  induction config with
  | nil => intro st h; exact h
  | cons e config ih =>
    intro st h
    rw [mungeConfig_cons]
    exact ih _ (mungeStep_keys_nodup action st e h)

/-- The merged table has one entry per key. -/
theorem ApplyKeybinding_keys_nodup {σ : Type} (K : KeyseqPkg σ)
    (defaultKeyBinding : StrMap Action) (km : Keymap σ) (reg : Registry) :
    ((ApplyKeybinding G K defaultKeyBinding km reg).kb.map Prod.fst).Nodup :=
  mungeConfig_keys_nodup km.Action km.Config _ (copyDefaults_keys_nodup defaultKeyBinding)

theorem mem_parsedPairs {σ : Type} (K : KeyseqPkg σ) (kb : StrMap Action) (list : List Key)
    (a : Action) :
    (list, a) ∈ parsedPairs K kb ↔ ∃ s, (s, a) ∈ kb ∧ K.ToKeyList s = .ok list := by
  unfold parsedPairs
  rw [List.mem_filterMap]
  constructor
  · rintro ⟨⟨s, b⟩, hmem, h⟩
    cases hp : K.ToKeyList s with
    | error err => simp [hp] at h
    | ok l =>
      simp only [hp, Option.some.injEq, Prod.mk.injEq] at h
      obtain ⟨h1, h2⟩ := h
      subst h1; subst h2
      exact ⟨s, hmem, hp⟩
  · rintro ⟨s, hmem, hp⟩
    exact ⟨(s, a), hmem, by simp [hp]⟩

/-! ## Deleting a binding (C11) -/

/-- The turn of the loop for a `"-"` entry whose key the table does not bind. -/
theorem mungeStep_delete_unbound (action : StrMap (List String)) (st : Munge) (key : String)
    (h : st.kb.get? key = none) : mungeStep G action st (key, "-") = st := by
  simp [mungeStep, StrMap.delete_of_get?_eq_none st.kb key h]

/-- C11: when the config holds the entry `(key, "-")`, the table that `ApplyKeybinding`
merges has no binding for `key`, no entry of the table carries `key`, and every pair fed
to the matcher comes from an entry with another key spec; when the defaults do not bind
`key`, the turn of the loop for the entry changes nothing at all. -/
theorem ApplyKeybinding_delete {σ : Type} (K : KeyseqPkg σ)
    (defaultKeyBinding : StrMap Action) (km : Keymap σ) (reg : Registry)
    (before after : StrMap String) (key : String)
    (hcfg : km.Config = before ++ (key, "-") :: after)
    (hnodup : (km.Config.map Prod.fst).Nodup) :
    (ApplyKeybinding G K defaultKeyBinding km reg).kb.get? key = none ∧
    key ∉ (ApplyKeybinding G K defaultKeyBinding km reg).kb.map Prod.fst ∧
    (∀ list a, (list, a) ∈ parsedPairs K (ApplyKeybinding G K defaultKeyBinding km reg).kb →
      ∃ s, s ≠ key ∧ (ApplyKeybinding G K defaultKeyBinding km reg).kb.get? s = some a ∧
        K.ToKeyList s = .ok list) ∧
    ((defaultKeyBinding.map Prod.fst).Nodup → defaultKeyBinding.get? key = none →
      mungeStep G km.Action
          (mungeConfig G km.Action before ⟨copyDefaults defaultKeyBinding, reg, []⟩) (key, "-") =
        mungeConfig G km.Action before ⟨copyDefaults defaultKeyBinding, reg, []⟩) := by
  have hrun : mungeConfig G km.Action km.Config ⟨copyDefaults defaultKeyBinding, reg, []⟩ =
      mungeConfig G km.Action after (mungeStep G km.Action
        (mungeConfig G km.Action before ⟨copyDefaults defaultKeyBinding, reg, []⟩)
        (key, "-")) := by
    rw [hcfg, mungeConfig_append, mungeConfig_cons]
  rw [hcfg, List.map_append, List.map_cons, List.nodup_append] at hnodup
  obtain ⟨_, hn2, hdisj⟩ := hnodup
  have hbefore : key ∉ before.map Prod.fst := fun h =>
    hdisj h (List.mem_cons_self _ _)
  have hafter : key ∉ after.map Prod.fst := (List.nodup_cons.mp hn2).1
  have hnone : (ApplyKeybinding G K defaultKeyBinding km reg).kb.get? key = none := by
    show (mungeConfig G km.Action km.Config
      ⟨copyDefaults defaultKeyBinding, reg, []⟩).kb.get? key = none
    rw [hrun, mungeConfig_kb_get?_of_not_mem km.Action after key hafter]
    simp [mungeStep, StrMap.get?_delete]
  have hkeys := StrMap.not_mem_of_get?_eq_none _ key hnone
  refine ⟨hnone, hkeys, fun list a hmem => ?_, fun hdef hd => ?_⟩
  · obtain ⟨s, hs, hp⟩ := (mem_parsedPairs K _ list a).mp hmem
    refine ⟨s, fun e => hkeys (e ▸ List.mem_map_of_mem Prod.fst hs), ?_, hp⟩
    exact (StrMap.get?_eq_some_iff_mem _
      (ApplyKeybinding_keys_nodup K defaultKeyBinding km reg) s a).mpr hs
  · apply mungeStep_delete_unbound
    rw [mungeConfig_kb_get?_of_not_mem km.Action before key hbefore]
    rw [copyDefaults_get? defaultKeyBinding hdef key]
    exact hd

/-- C11 at the config `b = peco.Finish3, a = -` over defaults that bind `a`. -/
theorem ApplyKeybinding_delete_witness :
    (ApplyKeybinding bits64 recordingKeyseq [("a", Action.builtin "up"), ("c", Action.builtin "down")]
      ⟨[("b", "peco.Finish3"), ("a", "-")], [], []⟩ []).kb.get? "a" = none ∧
    (ApplyKeybinding bits64 recordingKeyseq [("a", Action.builtin "up"), ("c", Action.builtin "down")]
      ⟨[("b", "peco.Finish3"), ("a", "-")], [], []⟩ []).Keyseq =
      [([⟨ModifierKey.ModNone, 0, 98⟩], Action.finish 3),
       ([⟨ModifierKey.ModNone, 0, 99⟩], Action.builtin "down")] :=
  ⟨(ApplyKeybinding_delete recordingKeyseq
      [("a", Action.builtin "up"), ("c", Action.builtin "down")]
      ⟨[("b", "peco.Finish3"), ("a", "-")], [], []⟩ [] [("b", "peco.Finish3")] [] "a" rfl
      (by decide)).1, rfl⟩

/-! ## Overriding a binding (C12) -/

/-- The turn of the loop for an entry whose name resolves. -/
theorem mungeStep_ok (action : StrMap (List String)) (st : Munge) (key name : String)
    (a : Action) (hname : name ≠ "-")
    (hok : (resolveActionName G action name 0 st.nameToActions).val = .ok a) :
    mungeStep G action st (key, name) =
      { st with
        kb := st.kb.set key a,
        nameToActions := (resolveActionName G action name 0 st.nameToActions).nameToActions } := by
  unfold mungeStep
  simp only [hname, if_false, hok]

/-- C12: let the config loop of `ApplyKeybinding` reach an entry `(key, name)` whose `name`
is not `"-"` and resolves there to the action `a`. Then the effective table binds `key` to
`a`, whatever the defaults bind `key` to. -/
theorem ApplyKeybinding_override {σ : Type} (K : KeyseqPkg σ)
    (defaultKeyBinding : StrMap Action) (km : Keymap σ) (reg : Registry)
    (before after : StrMap String) (key name : String) (a : Action)
    (hcfg : km.Config = before ++ (key, name) :: after)
    (hnodup : (km.Config.map Prod.fst).Nodup)
    (hname : name ≠ "-")
    (hok : (resolveActionName G km.Action name 0
      (mungeConfig G km.Action before
        ⟨copyDefaults defaultKeyBinding, reg, []⟩).nameToActions).val = .ok a) :
    (ApplyKeybinding G K defaultKeyBinding km reg).kb.get? key = some a := by
  have hrun : mungeConfig G km.Action km.Config ⟨copyDefaults defaultKeyBinding, reg, []⟩ =
      mungeConfig G km.Action after (mungeStep G km.Action
        (mungeConfig G km.Action before ⟨copyDefaults defaultKeyBinding, reg, []⟩)
        (key, name)) := by
    rw [hcfg, mungeConfig_append, mungeConfig_cons]
  rw [hcfg, List.map_append, List.map_cons, List.nodup_append] at hnodup
  have hafter : key ∉ after.map Prod.fst := (List.nodup_cons.mp hnodup.2.1).1
  show (mungeConfig G km.Action km.Config
    ⟨copyDefaults defaultKeyBinding, reg, []⟩).kb.get? key = some a
  rw [hrun, mungeConfig_kb_get?_of_not_mem km.Action after key hafter,
    mungeStep_ok km.Action _ key name a hname hok]
  simp [StrMap.get?_set]

/-- C12 at defaults that bind `a` to the builtin `up` and the config `a = peco.Finish3`. -/
theorem ApplyKeybinding_override_witness :
    StrMap.get? [("a", Action.builtin "up")] "a" = some (Action.builtin "up") ∧
    (ApplyKeybinding bits64 recordingKeyseq [("a", Action.builtin "up")]
      ⟨[("b", "-"), ("a", "peco.Finish3")], [], []⟩ []).kb.get? "a" =
      some (Action.finish 3) :=
  ⟨rfl, ApplyKeybinding_override recordingKeyseq [("a", Action.builtin "up")]
    ⟨[("b", "-"), ("a", "peco.Finish3")], [], []⟩ [] [("b", "-")] [] "a" "peco.Finish3"
    (Action.finish 3) rfl (by decide) (by decide) rfl⟩

/-! ## Resolved names are cached (C15) -/

/-- C15: when `resolveActionName(name, depth)` succeeds with the action `a`, `name` is
registered to `a` afterwards, and a call `resolveActionName(name, d)` made next, at any
`d < maxResolveActionDepth`, returns `a`, leaves the registry as it is and makes no nested
call (the dynamic pattern and the combo configuration are not looked at). -/
theorem resolveActionName_cached (action : StrMap (List String)) (name : String)
    (depth : Int) (reg : Registry) (a : Action)
    (h : (resolveActionName G action name depth reg).val = .ok a) :
    (resolveActionName G action name depth reg).nameToActions.get? name = some a ∧
    ∀ d, d < maxResolveActionDepth →
      ∀ action', resolveActionName G action' name d
          (resolveActionName G action name depth reg).nameToActions =
        ⟨.ok a, (resolveActionName G action name depth reg).nameToActions, [(name, d)]⟩ := by
  have hreg := resolveActionName_ok_registered (G := G) action name depth reg a h
  exact ⟨hreg, fun d hd action' => resolveActionName_registered action' name d _ a hd hreg⟩

/-- C15 at the combo `both = [peco.Finish1, peco.Finish2]`. -/
theorem resolveActionName_cached_witness :
    (resolveActionName bits64 [("both", ["peco.Finish1", "peco.Finish2"])] "both" 0
      []).nameToActions.get? "both" =
      some (Action.combined [Action.finish 1, Action.finish 2]) ∧
    ∀ d, d < maxResolveActionDepth →
      ∀ action', resolveActionName bits64 action' "both" d
          (resolveActionName bits64 [("both", ["peco.Finish1", "peco.Finish2"])] "both" 0
            []).nameToActions =
        ⟨.ok (Action.combined [Action.finish 1, Action.finish 2]),
          (resolveActionName bits64 [("both", ["peco.Finish1", "peco.Finish2"])] "both" 0
            []).nameToActions, [("both", d)]⟩ :=
  resolveActionName_cached [("both", ["peco.Finish1", "peco.Finish2"])] "both" 0 []
    (Action.combined [Action.finish 1, Action.finish 2]) rfl

/-! ## A failed call does not register its name (C19) -/

/-- C19: when `resolveActionName(name, depth)` returns an error and `name` was not
registered before the call, `name` is not registered after it, whatever the nested calls
have registered. -/
theorem resolveActionName_failed_unregistered (action : StrMap (List String))
    (name : String) (depth : Int) (reg : Registry) (e : ResolveError)
    (he : (resolveActionName G action name depth reg).val = .error e)
    (h0 : reg.get? name = none) :
    (resolveActionName G action name depth reg).nameToActions.get? name = none :=
  resolveActionName_error_keeps action name depth reg h0 e he

/-- C19 at the combo `a = [peco.Finish1, a]`, depth 98: the call fails at the depth limit
after the nested calls have registered `peco.Finish1` and tried `a` again. -/
theorem resolveActionName_failed_unregistered_witness :
    (resolveActionName bits64 [("a", ["peco.Finish1", "a"])] "a" 98 []).val =
      .error (.deepRecursion "peco.Finish1") ∧
    (resolveActionName bits64 [("a", ["peco.Finish1", "a"])] "a" 98 []).calls =
      [("a", 98), ("peco.Finish1", 99), ("a", 99), ("peco.Finish1", 100)] ∧
    (resolveActionName bits64 [("a", ["peco.Finish1", "a"])] "a" 98 []).nameToActions.get?
      "peco.Finish1" = some (Action.finish 1) ∧
    (resolveActionName bits64 [("a", ["peco.Finish1", "a"])] "a" 98 []).nameToActions.get? "a" =
      none :=
  ⟨rfl, rfl, rfl, resolveActionName_failed_unregistered [("a", ["peco.Finish1", "a"])] "a" 98 []
    (.deepRecursion "peco.Finish1") rfl rfl⟩

/-! ## Keys the config does not mention (C20) -/

/-- C20: for a key spec that is not a key of the config, the table that `ApplyKeybinding`
merges reads as the defaults do (bound exactly when the defaults bind it, to the default
action), whatever the config entries are and whether they resolve; and a key spec that the
merged table binds is a key of the defaults or of the config. -/
theorem ApplyKeybinding_frame {σ : Type} (K : KeyseqPkg σ)
    (defaultKeyBinding : StrMap Action) (km : Keymap σ) (reg : Registry)
    (hdef : (defaultKeyBinding.map Prod.fst).Nodup) (key : String) :
    (key ∉ km.Config.map Prod.fst →
      (ApplyKeybinding G K defaultKeyBinding km reg).kb.get? key =
        defaultKeyBinding.get? key) ∧
    ((ApplyKeybinding G K defaultKeyBinding km reg).kb.get? key ≠ none →
      key ∈ defaultKeyBinding.map Prod.fst ∨ key ∈ km.Config.map Prod.fst) := by
  have h1 : key ∉ km.Config.map Prod.fst →
      (ApplyKeybinding G K defaultKeyBinding km reg).kb.get? key =
        defaultKeyBinding.get? key := by
    intro hk
    show (mungeConfig G km.Action km.Config
      ⟨copyDefaults defaultKeyBinding, reg, []⟩).kb.get? key = defaultKeyBinding.get? key
    rw [mungeConfig_kb_get?_of_not_mem km.Action km.Config key hk]
    exact copyDefaults_get? defaultKeyBinding hdef key
  refine ⟨h1, fun hb => ?_⟩
  by_cases hk : key ∈ km.Config.map Prod.fst
  · exact Or.inr hk
  · left
    by_contra hd
    rw [h1 hk, StrMap.get?_eq_none_of_not_mem defaultKeyBinding key hd] at hb
    exact hb rfl

/-- C20 at the key `c`, bound by the defaults and not mentioned by a config whose entries
fail, delete and override. -/
theorem ApplyKeybinding_frame_witness :
    (ApplyKeybinding bits64 recordingKeyseq [("a", Action.builtin "up"), ("c", Action.builtin "down")]
      ⟨[("b", "peco.Finish3"), ("a", "-"), ("d", "no.such.action")], [], []⟩ []).kb.get? "c" =
      some (Action.builtin "down") :=
  (ApplyKeybinding_frame recordingKeyseq
    [("a", Action.builtin "up"), ("c", Action.builtin "down")]
    ⟨[("b", "peco.Finish3"), ("a", "-"), ("d", "no.such.action")], [], []⟩ [] (by decide)
    "c").1 (by decide)

/-! ## What the matcher is fed (C16) -/

theorem compileStep_foldl {σ : Type} (K : KeyseqPkg σ) (kb : StrMap Action) :
    ∀ (k : σ) (err : List String),
      kb.foldl (compileStep K) (k, err) =
        ((parsedPairs K kb).foldl (fun k p => K.Add k p.1 p.2) k, err ++ unknownKeys K kb) := by
  induction kb with
  | nil => intro k err; simp [parsedPairs, unknownKeys]
  | cons e kb ih =>
    intro k err
    rw [List.foldl_cons]
    cases hp : K.ToKeyList e.1 with
    | error msg =>
      have hstep : compileStep K (k, err) e =
          (k, err ++ ["Unknown key " ++ e.1 ++ ": " ++ msg]) := by
        simp [compileStep, hp]
      rw [hstep, ih]
      simp [parsedPairs, unknownKeys, List.filterMap_cons, hp]
    | ok list =>
      have hstep : compileStep K (k, err) e = (K.Add k list e.2, err) := by
        simp [compileStep, hp]
      rw [hstep, ih]
      simp [parsedPairs, unknownKeys, List.filterMap_cons, hp]

/-- C16: `ApplyKeybinding` always returns, and the matcher it leaves is the old one
cleared, then given with `Add` the pairs that the key specs of the merged table parse to,
then compiled. These pairs are exactly the `(key list, action)` for which the merged table
binds some key spec to the action and the key spec parses to the key list; an entry whose
key spec does not parse adds a diagnostic and no pair. -/
theorem ApplyKeybinding_matcher {σ : Type} (K : KeyseqPkg σ)
    (defaultKeyBinding : StrMap Action) (km : Keymap σ) (reg : Registry) :
    (ApplyKeybinding G K defaultKeyBinding km reg).Keyseq =
      K.Compile ((parsedPairs K (ApplyKeybinding G K defaultKeyBinding km reg).kb).foldl
        (fun k p => K.Add k p.1 p.2) (K.Clear km.Keyseq)) ∧
    (∀ list a, (list, a) ∈ parsedPairs K (ApplyKeybinding G K defaultKeyBinding km reg).kb ↔
      ∃ s, (ApplyKeybinding G K defaultKeyBinding km reg).kb.get? s = some a ∧
        K.ToKeyList s = .ok list) ∧
    (ApplyKeybinding G K defaultKeyBinding km reg).stderr =
      (mungeConfig G km.Action km.Config ⟨copyDefaults defaultKeyBinding, reg, []⟩).stderr ++
        unknownKeys K (ApplyKeybinding G K defaultKeyBinding km reg).kb := by
  refine ⟨?_, fun list a => ?_, ?_⟩
  · simp only [ApplyKeybinding, compileStep_foldl]
  · rw [mem_parsedPairs]
    constructor
    · rintro ⟨s, hs, hp⟩
      exact ⟨s, (StrMap.get?_eq_some_iff_mem _
        (ApplyKeybinding_keys_nodup K defaultKeyBinding km reg) s a).mpr hs, hp⟩
    · rintro ⟨s, hs, hp⟩
      exact ⟨s, (StrMap.get?_eq_some_iff_mem _
        (ApplyKeybinding_keys_nodup K defaultKeyBinding km reg) s a).mp hs, hp⟩
  · simp only [ApplyKeybinding, compileStep_foldl]

/-- C16 at defaults with a key spec that does not parse (`C-c`): the matcher is given the
pairs of `a` and `b` only, and the build goes on to the end. -/
theorem ApplyKeybinding_matcher_witness :
    (ApplyKeybinding bits64 recordingKeyseq
      [("a", Action.builtin "up"), ("C-c", Action.builtin "down")]
      ⟨[("b", "peco.Finish3")], [], [([], Action.doNothing)]⟩ []).Keyseq =
      [([⟨ModifierKey.ModNone, 0, 98⟩], Action.finish 3),
       ([⟨ModifierKey.ModNone, 0, 97⟩], Action.builtin "up")] ∧
    (ApplyKeybinding bits64 recordingKeyseq
      [("a", Action.builtin "up"), ("C-c", Action.builtin "down")]
      ⟨[("b", "peco.Finish3")], [], [([], Action.doNothing)]⟩ []).stderr =
      ["Unknown key C-c: no such key"] :=
  ⟨(ApplyKeybinding_matcher recordingKeyseq
      [("a", Action.builtin "up"), ("C-c", Action.builtin "down")]
      ⟨[("b", "peco.Finish3")], [], [([], Action.doNothing)]⟩ []).1.trans rfl, rfl⟩

/-! ## Handler (C17) -/

theorem eventKey_Modifier (ev : Event) :
    (eventKey ev).Modifier =
      if ev.Mod.testBit 0 then ModifierKey.ModAlt else ModifierKey.ModNone := by
  have h : ev.Mod &&& ModAlt = ev.Mod % 2 := Nat.and_one_is_mod ev.Mod
  simp only [eventKey, h, Nat.testBit_zero]
  rcases Nat.mod_two_eq_zero_or_one ev.Mod with h0 | h1
  · simp [h0]
  · simp [h1]

theorem Handler_of_ok {σ : Type} (K : KeyseqPkg σ) (km : Keymap σ) (ev : Event)
    (a : Action) (h : (K.AcceptKey km.Keyseq (eventKey ev)).1 = .ok a) :
    (Handler K km ev).1 = wrapClearSequence a := by
  simp [Handler, h]

theorem Handler_of_error {σ : Type} (K : KeyseqPkg σ) (km : Keymap σ) (ev : Event)
    (e : KeyseqError) (h : (K.AcceptKey km.Keyseq (eventKey ev)).1 = .error e)
    (hne : e ≠ .ErrInSequence) :
    (Handler K km ev).1 = wrapClearSequence Action.doAcceptChar := by
  cases e with
  | ErrInSequence => exact absurd rfl hne
  | ErrNoMatch => simp [Handler, h]
  | other msg => simp [Handler, h]

/-- C17: `Handler` returns an action for every event, with no error value. It gives
`AcceptKey` once the key of the event (modifier `ModAlt` when the Alt bit of `ev.Mod` is
set and `ModNone` otherwise, key code and character as in the event; the matcher state
returned is the one this call leaves), and the action is: the matched action wrapped by
`wrapClearSequence` when `AcceptKey` reports no error, `doNothing` wrapped by
`wrapRememberSequence` when it reports `ErrInSequence`, `doAcceptChar` wrapped by
`wrapClearSequence` for every other error. -/
theorem Handler_total {σ : Type} (K : KeyseqPkg σ) (km : Keymap σ) (ev : Event) :
    eventKey ev =
      ⟨if ev.Mod.testBit 0 then ModifierKey.ModAlt else ModifierKey.ModNone, ev.Key, ev.Ch⟩ ∧
    (Handler K km ev).2 = (K.AcceptKey km.Keyseq (eventKey ev)).2 ∧
    (∀ a, (K.AcceptKey km.Keyseq (eventKey ev)).1 = .ok a →
      (Handler K km ev).1 = wrapClearSequence a) ∧
    ((K.AcceptKey km.Keyseq (eventKey ev)).1 = .error .ErrInSequence →
      (Handler K km ev).1 = wrapRememberSequence Action.doNothing) ∧
    (∀ e, (K.AcceptKey km.Keyseq (eventKey ev)).1 = .error e → e ≠ .ErrInSequence →
      (Handler K km ev).1 = wrapClearSequence Action.doAcceptChar) := by
  refine ⟨?_, ?_, fun a h => ?_, fun h => ?_, fun e h hne => ?_⟩
  · have := eventKey_Modifier ev
    cases hk : eventKey ev with
    | mk m k c =>
      rw [hk] at this
      simp only at this
      have h2 : (eventKey ev).Key = ev.Key := rfl
      have h3 : (eventKey ev).Ch = ev.Ch := rfl
      rw [hk] at h2 h3
      simp only at h2 h3
      rw [this, h2, h3]
  · unfold Handler
    dsimp only
    cases (K.AcceptKey km.Keyseq (eventKey ev)).1 with
    | ok a => rfl
    | error e => cases e <;> rfl
  · exact Handler_of_ok K km ev a h
  · simp [Handler, h]
  · exact Handler_of_error K km ev e h hne

/-- C17 at the matcher for `a` and `a b`: the key `a` with the Alt bit clear is in
sequence, the key `x` with the Alt bit set is no match. -/
theorem Handler_total_witness :
    Handler abKeyseq ⟨[], [], 0⟩ ⟨0, 0, 97⟩ =
      (wrapRememberSequence Action.doNothing, 1) ∧
    eventKey ⟨1, 0, 120⟩ = ⟨ModifierKey.ModAlt, 0, 120⟩ ∧
    Handler abKeyseq ⟨[], [], 1⟩ ⟨1, 0, 120⟩ =
      (wrapClearSequence Action.doAcceptChar, 0) :=
  ⟨Prod.ext ((Handler_total abKeyseq ⟨[], [], 0⟩ ⟨0, 0, 97⟩).2.2.2.1 rfl)
      (Handler_total abKeyseq ⟨[], [], 0⟩ ⟨0, 0, 97⟩).2.1,
    (Handler_total abKeyseq ⟨[], [], 1⟩ ⟨1, 0, 120⟩).1,
    Prod.ext ((Handler_total abKeyseq ⟨[], [], 1⟩ ⟨1, 0, 120⟩).2.2.2.2 .ErrNoMatch rfl
      (by decide)) (Handler_total abKeyseq ⟨[], [], 1⟩ ⟨1, 0, 120⟩).2.1⟩

/-! ## Clearing the in-progress sequence (C18) -/

/-- What the closure of `wrapClearSequence` does before it runs the inner action. -/
theorem clearStep_eq {β : Type} (eventToString : Event → Except String String)
    (i : Input β) (ev : Event) :
    clearStep eventToString i ev =
      { i with
        currentKeySeq := [],
        status := i.status ++
          if shownKeys i.currentKeySeq (eventToString ev) = [] then []
          else [⟨joinSpace (shownKeys i.currentKeySeq (eventToString ev)),
            some (500 * Millisecond)⟩] } := by
  obtain ⟨L, st, rest⟩ := i
  unfold clearStep shownKeys
  cases eventToString ev with
  | ok s => simp [Input.SendStatusMsgAndClear]
  | error msg =>
    cases L with
    | nil => simp
    | cons a l => simp [Input.SendStatusMsgAndClear]

/-- C18: executing the action that `Handler` returns when the matcher reports an action
`a`, or an error other than `ErrInSequence`, first empties the in-progress sequence, having
sent the status bar (once, with the 500 ms auto-clear) the sequence so far extended by the
display string of the event, joined by single spaces, when that list is not empty, and
nothing when it is empty; then it executes the inner action (`a`, or `doAcceptChar`) once,
with the same event, on the state so prepared. -/
theorem Handler_clear {σ β : Type} (K : KeyseqPkg σ) (P : Primitives β) (km : Keymap σ)
    (i : Input β) (ev : Event) :
    (∀ a, (K.AcceptKey km.Keyseq (eventKey ev)).1 = .ok a →
      (Handler K km ev).1.Execute P K.EventToString i ev =
        a.Execute P K.EventToString
          { i with
            currentKeySeq := [],
            status := i.status ++
              if shownKeys i.currentKeySeq (K.EventToString ev) = [] then []
              else [⟨joinSpace (shownKeys i.currentKeySeq (K.EventToString ev)),
                some (500 * Millisecond)⟩] } ev) ∧
    (∀ e, (K.AcceptKey km.Keyseq (eventKey ev)).1 = .error e → e ≠ .ErrInSequence →
      (Handler K km ev).1.Execute P K.EventToString i ev =
        P.doAcceptChar
          { i with
            currentKeySeq := [],
            status := i.status ++
              if shownKeys i.currentKeySeq (K.EventToString ev) = [] then []
              else [⟨joinSpace (shownKeys i.currentKeySeq (K.EventToString ev)),
                some (500 * Millisecond)⟩] } ev) := by
  refine ⟨fun a h => ?_, fun e h hne => ?_⟩
  · rw [Handler_of_ok K km ev a h]
    simp only [wrapClearSequence, Action.Execute, clearStep_eq]
  · rw [Handler_of_error K km ev e h hne]
    simp only [wrapClearSequence, Action.Execute, clearStep_eq]

/-- C18 at the matcher for `a` and `a b`, the sequence `a` in progress and the key `x`: no
match, `a x` is shown with the auto-clear, the sequence is emptied, `doAcceptChar` runs;
and at a key without display string on an empty sequence no status is sent. -/
theorem Handler_clear_witness :
    (Handler abKeyseq ⟨[], [], 1⟩ ⟨0, 0, 120⟩).1.Execute recordingPrimitives
        abKeyseq.EventToString ⟨["a"], [⟨"a", none⟩], []⟩ ⟨0, 0, 120⟩ =
      ⟨[], [⟨"a", none⟩, ⟨"a x", some 500000000⟩], ["doAcceptChar"]⟩ ∧
    (Handler recordingKeyseq ⟨[], [], []⟩ ⟨0, 0, 120⟩).1.Execute recordingPrimitives
        (fun _ => .error "no string") ⟨[], [], []⟩ ⟨0, 0, 120⟩ =
      ⟨[], [], ["doAcceptChar"]⟩ :=
  ⟨((Handler_clear abKeyseq recordingPrimitives ⟨[], [], 1⟩ ⟨["a"], [⟨"a", none⟩], []⟩
      ⟨0, 0, 120⟩).2 .ErrNoMatch rfl (by decide)).trans rfl, rfl⟩

/-! ## Decimal numerals are read back -/

theorem digitVal_digitChar (k : Nat) (hk : k < 10) : digitVal (Nat.digitChar k) = some k := by
  interval_cases k <;> decide

theorem digitChar_ne_sign (k : Nat) (hk : k < 10) :
    Nat.digitChar k ≠ '+' ∧ Nat.digitChar k ≠ '-' := by
  interval_cases k <;> decide

theorem parseDigits_toDigitsCore :
    ∀ (fuel n : Nat) (ds : List Char), n < fuel →
      parseDigits (Nat.toDigitsCore 10 fuel n ds) 0 = parseDigits ds n := by
  intro fuel
  induction fuel with
  | zero => intro n ds h; omega
  | succ fuel ih =>
    intro n ds h
    unfold Nat.toDigitsCore
    by_cases h0 : n / 10 = 0
    · have hn : n < 10 := by omega
      have hmod : n % 10 = n := Nat.mod_eq_of_lt hn
      simp only [h0, if_true, hmod, parseDigits, digitVal_digitChar n hn]
      simp
    · have hlt : n / 10 < fuel := by omega
      simp only [h0, if_false]
      rw [ih (n / 10) _ hlt]
      simp only [parseDigits, digitVal_digitChar (n % 10) (Nat.mod_lt n (by decide))]
      congr 1
      omega

theorem toDigitsCore_head :
    ∀ (fuel n : Nat) (ds : List Char), n < fuel →
      ∃ k, k < 10 ∧ ∃ rest, Nat.toDigitsCore 10 fuel n ds = Nat.digitChar k :: rest := by
  intro fuel
  induction fuel with
  | zero => intro n ds h; omega
  | succ fuel ih =>
    intro n ds h
    unfold Nat.toDigitsCore
    by_cases h0 : n / 10 = 0
    · exact ⟨n % 10, Nat.mod_lt n (by decide), ds, by simp [h0]⟩
    · have hlt : n / 10 < fuel := by omega
      simp only [h0, if_false]
      exact ih (n / 10) _ hlt

/-- Call `strconv.ParseInt` on the decimal numeral of a natural number below `2 ^ 63`. -/
theorem ParseInt_natRepr (n : Nat) (hn : n < 2 ^ 63) :
    ParseInt (toString n).toList = some (n : Int) := by
  have hdata : (toString n).toList = Nat.toDigits 10 n := rfl
  rw [hdata]
  obtain ⟨k, hk, rest, hrest⟩ := toDigitsCore_head (n + 1) n [] (Nat.lt_succ_self n)
  have hparse := parseDigits_toDigitsCore (n + 1) n [] (Nat.lt_succ_self n)
  unfold Nat.toDigits
  rw [hrest] at hparse ⊢
  obtain ⟨h1, h2⟩ := digitChar_ne_sign k hk
  simp only [ParseInt, h1, h2, or_self, if_false, hparse, decide_False]
  simp only [parseDigits]
  simp
  omega

/-- Call `strconv.ParseInt` on the decimal numeral of an integer of 64 bits. -/
theorem ParseInt_intRepr (n : Int) (hlo : -2 ^ 63 ≤ n) (hhi : n < 2 ^ 63) :
    ParseInt (toString n).toList = some n := by
  cases n with
  | ofNat m =>
    have hm : m < 2 ^ 63 := by
      have : (m : Int) < 2 ^ 63 := hhi
      exact_mod_cast this
    exact ParseInt_natRepr m hm
  | negSucc m =>
    have hm : m + 1 ≤ 2 ^ 63 := by
      have h : -(2 : Int) ^ 63 ≤ Int.negSucc m := hlo
      rw [Int.negSucc_eq] at h
      have h' : ((m : Int) + 1) ≤ 2 ^ 63 := by linarith
      exact_mod_cast h'
    have hdata : (toString (Int.negSucc m)).toList = '-' :: Nat.toDigits 10 (m + 1) := rfl
    rw [hdata]
    obtain ⟨k, hk, rest, hrest⟩ :=
      toDigitsCore_head (m + 1 + 1) (m + 1) [] (Nat.lt_succ_self _)
    have hparse := parseDigits_toDigitsCore (m + 1 + 1) (m + 1) [] (Nat.lt_succ_self _)
    unfold Nat.toDigits
    rw [hrest] at hparse ⊢
    simp only [ParseInt, or_true, if_true, hparse, decide_True]
    simp only [parseDigits]
    simp [Int.negSucc_eq]
    omega

/-- The conversion `int(v)` is the identity on what `int` can hold. -/
theorem toGoInt_of_range (n : Int) (hlo : -2 ^ (G.intSize - 1) ≤ n)
    (hhi : n < 2 ^ (G.intSize - 1)) : toGoInt G n = n := by
  unfold toGoInt
  have hpow : (2 : Int) ^ G.intSize = 2 * 2 ^ (G.intSize - 1) := by
    rcases G.intSize_eq with h | h <;> rw [h] <;> norm_num
  rw [hpow, Int.emod_eq_of_lt (by linarith) (by linarith)]
  ring

/-- The dynamic finish pattern on `peco.Finish` followed by the decimal numeral of a
64-bit integer: the status is the integer converted to `int`. -/
theorem finishStatus_numeral (n : Int) (hlo : -2 ^ 63 ≤ n) (hhi : n < 2 ^ 63) :
    finishStatus G ("peco.Finish" ++ toString n) = some (toGoInt G n) := by
  have hl : ("peco.Finish" ++ toString n).toList =
      "peco.Finish".toList ++ (toString n).toList := String.data_append _ _
  have hp : HasPrefix ("peco.Finish" ++ toString n) "peco.Finish" = true := by
    unfold HasPrefix
    rw [hl, List.isPrefixOf_iff_prefix]
    exact List.prefix_append _ _
  have hdrop : ("peco.Finish" ++ toString n).toList.drop 11 = (toString n).toList := by
    rw [hl]
    exact List.drop_left' (by decide)
  unfold finishStatus
  rw [hp, hdrop, ParseInt_intRepr n hlo hhi]
  rfl

/-! ## Dynamic finish names (C13) -/

theorem resolveActionName_finish (action : StrMap (List String)) (name : String)
    (depth : Int) (reg : Registry) (n : Int) (hd : depth < maxResolveActionDepth)
    (hreg : reg.get? name = none) (hfin : finishStatus G name = some n) :
    resolveActionName G action name depth reg =
      ⟨.ok (makeFinishAction n), reg.set name (makeFinishAction n), [(name, depth)]⟩ := by
  have h := resolveFuel_bound (G := G) action name depth reg
  simp only [resolveBound] at h
  unfold resolveFuel at h
  simp only [not_le.mpr hd, ge_iff_le, if_false, hreg, hfin, Option.some.injEq] at h
  exact h.symm

/-- C13, as stated, fails where `int` is 32 bits wide: `4294967296` is representable in 64
bits, and `peco.Finish4294967296` resolves to the finish action of `0`, not of `4294967296`,
the same action as `peco.Finish0` resolves to. -/
theorem resolveActionName_dynamic_counterexample :
    (-2 ^ 63 ≤ (4294967296 : Int) ∧ (4294967296 : Int) < 2 ^ 63) ∧
    "peco.Finish" ++ toString (4294967296 : Int) = "peco.Finish4294967296" ∧
    (resolveActionName bits32 [] "peco.Finish4294967296" 0 []).val =
      .ok (makeFinishAction 0) ∧
    makeFinishAction 0 ≠ makeFinishAction 4294967296 ∧
    (resolveActionName bits32 [] "peco.Finish0" 0 []).val =
      (resolveActionName bits32 [] "peco.Finish4294967296" 0 []).val :=
  ⟨⟨by decide, by decide⟩, by decide, rfl, by simp [makeFinishAction], rfl⟩

/-- C13 (amended): for an integer `n` of 64 bits and the name `peco.Finish` followed by the
decimal numeral of `n`, not registered, at a `depth < maxResolveActionDepth`: the call
returns the finish action of `int(n)`, which is `n` wrapped to the width of `int`, and the
registry afterwards is the old one with the name set to that action, with no nested call.
`int(n)` is `n` itself whenever `int` can hold `n`, so always where `int` is 64 bits wide.
Resolving the name again returns the same action and changes nothing, and the name of
another integer `m` resolves to another action when `int` can hold both `m` and `n`. -/
theorem resolveActionName_dynamic (action : StrMap (List String)) (reg : Registry)
    (n : Int) (depth : Int) (hlo : -2 ^ 63 ≤ n) (hhi : n < 2 ^ 63)
    (hreg : reg.get? ("peco.Finish" ++ toString n) = none)
    (hd : depth < maxResolveActionDepth) :
    resolveActionName G action ("peco.Finish" ++ toString n) depth reg =
      ⟨.ok (makeFinishAction (toGoInt G n)),
        reg.set ("peco.Finish" ++ toString n) (makeFinishAction (toGoInt G n)),
        [("peco.Finish" ++ toString n, depth)]⟩ ∧
    (-2 ^ (G.intSize - 1) ≤ n → n < 2 ^ (G.intSize - 1) → toGoInt G n = n) ∧
    (G.intSize = 64 → toGoInt G n = n) ∧
    (∀ d, d < maxResolveActionDepth →
      resolveActionName G action ("peco.Finish" ++ toString n) d
          (resolveActionName G action ("peco.Finish" ++ toString n) depth reg).nameToActions =
        ⟨.ok (makeFinishAction (toGoInt G n)),
          (resolveActionName G action ("peco.Finish" ++ toString n) depth reg).nameToActions,
          [("peco.Finish" ++ toString n, d)]⟩) ∧
    (∀ (m : Int) (reg' : Registry) (d : Int), -2 ^ 63 ≤ m → m < 2 ^ 63 → m ≠ n →
      -2 ^ (G.intSize - 1) ≤ m → m < 2 ^ (G.intSize - 1) →
      -2 ^ (G.intSize - 1) ≤ n → n < 2 ^ (G.intSize - 1) →
      reg'.get? ("peco.Finish" ++ toString m) = none → d < maxResolveActionDepth →
      (resolveActionName G action ("peco.Finish" ++ toString m) d reg').val ≠
        (resolveActionName G action ("peco.Finish" ++ toString n) depth reg).val) := by
  have h1 := resolveActionName_finish (G := G) action ("peco.Finish" ++ toString n) depth reg
    (toGoInt G n) hd hreg (finishStatus_numeral n hlo hhi)
  refine ⟨h1, fun h1' h2' => toGoInt_of_range n h1' h2', fun h64 => ?_, fun d hd' => ?_,
    fun m reg' d hmlo hmhi hne hm1 hm2 hn1 hn2 hreg' hd' => ?_⟩
  · apply toGoInt_of_range
    · rw [h64]; exact hlo
    · rw [h64]; exact hhi
  · exact resolveActionName_registered action _ d _ (makeFinishAction (toGoInt G n)) hd'
      (by rw [h1]; simp [StrMap.get?_set])
  · rw [h1, resolveActionName_finish action ("peco.Finish" ++ toString m) d reg' (toGoInt G m)
      hd' hreg' (finishStatus_numeral m hmlo hmhi)]
    rw [toGoInt_of_range m hm1 hm2, toGoInt_of_range n hn1 hn2]
    simp [makeFinishAction, hne]

/-- C13 (amended) at `peco.Finish7` and `peco.Finish8`, with `int` 64 bits wide. -/
theorem resolveActionName_dynamic_witness :
    resolveActionName bits64 [] "peco.Finish7" 0 [] =
      ⟨.ok (Action.finish 7), [("peco.Finish7", Action.finish 7)], [("peco.Finish7", 0)]⟩ ∧
    resolveActionName bits64 [] "peco.Finish7" 5 [("peco.Finish7", Action.finish 7)] =
      ⟨.ok (Action.finish 7), [("peco.Finish7", Action.finish 7)], [("peco.Finish7", 5)]⟩ ∧
    (resolveActionName bits64 [] "peco.Finish8" 0 []).val ≠
      (resolveActionName bits64 [] "peco.Finish7" 0 []).val :=
  ⟨(resolveActionName_dynamic (G := bits64) [] [] 7 0 (by decide) (by decide) rfl
      (by decide)).1,
   (resolveActionName_dynamic (G := bits64) [] [] 7 0 (by decide) (by decide) rfl
      (by decide)).2.2.2.1 5 (by decide),
   (resolveActionName_dynamic (G := bits64) [] [] 7 0 (by decide) (by decide) rfl
      (by decide)).2.2.2.2 8 [] 0 (by decide) (by decide) (by decide) (by decide) (by decide)
      (by decide) (by decide) rfl (by decide)⟩

/-! ## Names with the finish prefix that do not parse (C14) -/

/-- C14, as stated, fails: `peco.FinishNow` starts with `peco.Finish` and the rest does not
parse; as a combo key it resolves, to its combined action, and with no combo of that name
the call fails with the no-such-action error, the one every unresolvable name gets. -/
theorem resolveActionName_bad_suffix_counterexample :
    HasPrefix "peco.FinishNow" "peco.Finish" = true ∧
    ParseInt ("peco.FinishNow".toList.drop 11) = none ∧
    (resolveActionName bits64 [("peco.FinishNow", ["peco.Finish0"])] "peco.FinishNow" 0 []).val =
      .ok (Action.combined [Action.finish 0]) ∧
    (resolveActionName bits64 [] "peco.FinishNow" 0 []).val =
      .error (.noSuchAction "peco.FinishNow") ∧
    (resolveActionName bits64 [] "no.such.action" 0 []).val =
      .error (.noSuchAction "no.such.action") :=
  ⟨by decide, by decide, rfl, rfl, rfl⟩

/-- C14 (amended): a name that starts with `peco.Finish`, is not registered, and whose rest
does not parse is resolved, at a `depth < maxResolveActionDepth`, like any name outside the
dynamic pattern. When it is no combo key the call fails with the no-such-action error of
the name (there is no error of its own for the suffix), the registry stays as it is, and a
config entry that uses the name only writes this diagnostic and leaves the table as it was.
When it is a combo key the call is decided by its children: the combined action when they
all resolve, the error of the first child that fails otherwise. -/
theorem resolveActionName_bad_suffix (action : StrMap (List String)) (name : String)
    (depth : Int) (reg : Registry)
    (hpre : HasPrefix name "peco.Finish" = true)
    (hparse : ParseInt (name.toList.drop 11) = none)
    (hreg : reg.get? name = none) (hd : depth < maxResolveActionDepth) :
    (action.get? name = none →
      resolveActionName G action name depth reg =
        ⟨.error (.noSuchAction name), reg, [(name, depth)]⟩ ∧
      ∀ (st : Munge) (key : String), st.nameToActions = reg →
        mungeStep G action st (key, name) =
          { st with stderr := st.stderr ++ [(ResolveError.noSuchAction name).Error ++ "\n"] }) ∧
    (∀ l, action.get? name = some l →
      (∀ actions reg', ResolvedInOrder G action (depth + 1) reg l actions reg' →
        (resolveActionName G action name depth reg).val = .ok (makeCombinedAction actions)) ∧
      (∀ err reg', FirstFailure G action (depth + 1) reg l err reg' →
        (resolveActionName G action name depth reg).val = .error err)) := by
  have hfin : finishStatus G name = none := by
    unfold finishStatus
    rw [hpre, hparse]
    rfl
  have hname : name ≠ "-" := by
    intro e
    rw [e] at hpre
    revert hpre
    decide
  refine ⟨fun hact => ⟨resolveActionName_unknown action name depth reg hd hreg hfin hact,
    fun st key hst => ?_⟩, fun l hact => ?_⟩
  · have hres := resolveActionName_unknown (G := G) action name 0 st.nameToActions (by decide)
      (hst ▸ hreg) hfin hact
    rw [mungeStep_error action st key name (.noSuchAction name) hname (by rw [hres])]
    rw [hres]
  · obtain ⟨hok, herr⟩ := resolveActionName_combo_run (G := G) action name depth reg l hd hreg hfin hact
    exact ⟨fun actions reg' h => (hok actions reg' h).1,
      fun err reg' h => (herr err reg' h).1⟩

/-- C14 (amended) at `peco.FinishNow`, with no combo of that name. -/
theorem resolveActionName_bad_suffix_witness :
    resolveActionName bits64 [] "peco.FinishNow" 0 [] =
      ⟨.error (.noSuchAction "peco.FinishNow"), [], [("peco.FinishNow", 0)]⟩ ∧
    mungeStep bits64 [] ⟨[("a", Action.builtin "up")], [], []⟩ ("a", "peco.FinishNow") =
      ⟨[("a", Action.builtin "up")], [],
        ["error: Could not resolve peco.FinishNow: no such action\n"]⟩ :=
  ⟨((resolveActionName_bad_suffix [] "peco.FinishNow" 0 [] (by decide) (by decide) rfl
      (by decide)).1 rfl).1,
   (((resolveActionName_bad_suffix [] "peco.FinishNow" 0 [] (by decide) (by decide) rfl
      (by decide)).1 rfl).2 ⟨[("a", Action.builtin "up")], [], []⟩ "a" rfl).trans rfl⟩

/-! ## Names that stay unresolvable -/

/-- While no member of a doomed set is registered, no call registers a member, and every
call on a member fails. -/
theorem resolveActionName_doomed (action : StrMap (List String)) (C : String → Prop)
    (hC : Doomed G action C)
    (name : String) (depth : Int) (reg : Registry) (hreg : ∀ n, C n → reg.get? n = none) :
    (∀ n, C n → (resolveActionName G action name depth reg).nameToActions.get? n = none) ∧
    (C name → ∃ e, (resolveActionName G action name depth reg).val = .error e) := by
  have key := resolveActionName_induction (G := G) action
    (P := fun name _ reg r => (∀ n, C n → reg.get? n = none) →
      (∀ n, C n → r.nameToActions.get? n = none) ∧ (C name → ∃ e, r.val = .error e))
    (Q := fun l _ _ reg rs => (∀ n, C n → reg.get? n = none) →
      (∀ n, C n → rs.nameToActions.get? n = none) ∧
      ((∃ c, c ∈ l ∧ C c) → ∃ e, rs.val = .error e))
    (by intro name depth reg _ h; exact ⟨h, fun _ => ⟨_, rfl⟩⟩)
    (by
      intro name depth reg v _ hv h
      refine ⟨h, fun hc => ?_⟩
      rw [h name hc] at hv; cases hv)
    (by
      intro name depth reg n _ _ hfin h
      have hn : ¬ C name := fun hc => by rw [(hC name hc).1] at hfin; cases hfin
      refine ⟨fun m hm => ?_, fun hc => absurd hc hn⟩
      have hne : m ≠ name := fun e => hn (e ▸ hm)
      simp [StrMap.get?_set, hne, h m hm])
    (by
      intro name depth reg l rs err _ _ _ _ hq hv h
      exact ⟨(hq h).1, fun _ => ⟨err, rfl⟩⟩)
    (by
      intro name depth reg l rs actions _ _ _ hact hq hv h
      have hn : ¬ C name := by
        intro hc
        rcases (hC name hc).2 with hnone | ⟨c, ⟨l', hl', hmem⟩, hcc⟩
        · rw [hact] at hnone; cases hnone
        · rw [hact] at hl'
          cases hl'
          obtain ⟨e, he⟩ := (hq h).2 ⟨c, hmem, hcc⟩
          rw [hv] at he; cases he
      refine ⟨fun m hm => ?_, fun hc => absurd hc hn⟩
      have hne : m ≠ name := fun e => hn (e ▸ hm)
      simp [StrMap.get?_set, hne, (hq h).1 m hm])
    (by
      intro name depth reg _ _ _ hact h
      exact ⟨h, fun _ => ⟨_, rfl⟩⟩)
    (by
      intro depth actions reg h
      exact ⟨h, fun ⟨c, hc, _⟩ => by cases hc⟩)
    (by
      intro c l depth actions reg r err _ hp _ h
      exact ⟨(hp h).1, fun _ => ⟨err, rfl⟩⟩)
    (by
      intro c l depth actions reg r child rs _ hp hv hq h
      have hc : ¬ C c := fun hc => by
        obtain ⟨e, he⟩ := (hp h).2 hc
        rw [hv] at he; cases he
      refine ⟨(hq (hp h).1).1, ?_⟩
      rintro ⟨c', hmem, hc'⟩
      rcases List.mem_cons.mp hmem with e | hmem
      · exact absurd (e ▸ hc') hc
      · exact (hq (hp h).1).2 ⟨c', hmem, hc'⟩)
    name depth reg
  exact key hreg

/-- A no-such-action error names a dangling name that the name of the call reaches through
expansions. -/
theorem resolveActionName_noSuchAction_path (action : StrMap (List String)) (name : String)
    (depth : Int) (reg : Registry) (y : String)
    (h : (resolveActionName G action name depth reg).val = .error (.noSuchAction y)) :
    Relation.ReflTransGen (Expands G action reg) name y ∧
      reg.get? y = none ∧ finishStatus G y = none ∧ action.get? y = none := by
  have key := resolveActionName_induction (G := G) action
    (P := fun name _ reg r => ∀ y, r.val = .error (.noSuchAction y) →
      Relation.ReflTransGen (Expands G action reg) name y ∧
        reg.get? y = none ∧ finishStatus G y = none ∧ action.get? y = none)
    (Q := fun l _ _ reg rs => ∀ y, rs.val = .error (.noSuchAction y) →
      (∃ c, c ∈ l ∧ Relation.ReflTransGen (Expands G action reg) c y) ∧
        reg.get? y = none ∧ finishStatus G y = none ∧ action.get? y = none)
    (by intro name depth reg _ y h; cases h)
    (by intro name depth reg v _ _ y h; cases h)
    (by intro name depth reg n _ _ _ y h; cases h)
    (by
      intro name depth reg l rs err _ hreg hfin hact hq hv y h
      simp only [Except.error.injEq] at h
      obtain ⟨⟨c, hc, hpath⟩, h2⟩ := hq y (h ▸ hv)
      exact ⟨Relation.ReflTransGen.head ⟨hreg, hfin, l, hact, hc⟩ hpath, h2⟩)
    (by intro name depth reg l rs actions _ _ _ _ _ _ y h; cases h)
    (by
      intro name depth reg _ hreg hfin hact y h
      simp only [Except.error.injEq, ResolveError.noSuchAction.injEq] at h
      subst h
      exact ⟨Relation.ReflTransGen.refl, hreg, hfin, hact⟩)
    (by intro depth actions reg y h; cases h)
    (by
      intro c l depth actions reg r err _ hp hv y h
      simp only [Except.error.injEq] at h
      obtain ⟨hpath, h2⟩ := hp y (h ▸ hv)
      exact ⟨⟨c, List.mem_cons_self _ _, hpath⟩, h2⟩)
    (by
      intro c l depth actions reg r child rs hr _ _ hq y h
      obtain ⟨⟨c', hc', hpath⟩, h1, h2, h3⟩ := hq y h
      rw [hr] at h1 hpath
      refine ⟨⟨c', List.mem_cons_of_mem _ hc', ?_⟩,
        resolveActionName_get?_none action c depth reg y h1, h2, h3⟩
      refine Relation.ReflTransGen.mono ?_ hpath
      intro a b hab
      exact Expands.of_resolveActionName action c depth reg a b hab)
    name depth reg
  exact key y h

/-- A call that fails with the no-such-action error is a call on a member of a doomed set
of which no member is registered. -/
theorem resolveActionName_noSuchAction_doomed (action : StrMap (List String)) (name : String)
    (depth : Int) (reg : Registry) (y : String)
    (h : (resolveActionName G action name depth reg).val = .error (.noSuchAction y)) :
    ∃ C : String → Prop, Doomed G action C ∧ C name ∧ ∀ n, C n → reg.get? n = none := by
  obtain ⟨hpath, hy1, hy2, hy3⟩ := resolveActionName_noSuchAction_path action name depth reg y h
  refine ⟨fun x => Relation.ReflTransGen (Expands G action reg) x y, ?_, hpath, ?_⟩
  · intro n hn
    rcases Relation.ReflTransGen.cases_head hn with e | ⟨z, hnz, hzy⟩
    · rw [e]
      exact ⟨hy2, Or.inl hy3⟩
    · exact ⟨hnz.2.1, Or.inr ⟨z, hnz.2.2, hzy⟩⟩
  · intro n hn
    rcases Relation.ReflTransGen.cases_head hn with e | ⟨z, hnz, _⟩
    · rw [e]; exact hy1
    · exact hnz.1

/-! ## Building the table twice (C7) -/

theorem mungeStep_doomed (action : StrMap (List String)) (C : String → Prop)
    (hC : Doomed G action C) (st : Munge) (e : String × String)
    (h : ∀ n, C n → st.nameToActions.get? n = none) :
    ∀ n, C n → (mungeStep G action st e).nameToActions.get? n = none := by
  have hres := (resolveActionName_doomed action C hC e.2 0 st.nameToActions h).1
  unfold mungeStep
  split
  · exact h
  · dsimp only
    cases (resolveActionName G action e.2 0 st.nameToActions).val with
    | error err => exact hres
    | ok v => exact hres

theorem mungeConfig_doomed (action : StrMap (List String)) (C : String → Prop)
    (hC : Doomed G action C) (config : StrMap String) :
    ∀ st : Munge, (∀ n, C n → st.nameToActions.get? n = none) →
      ∀ n, C n → (mungeConfig G action config st).nameToActions.get? n = none := by
  induction config with
  | nil => intro st h; exact h
  | cons e config ih =>
    intro st h
    rw [mungeConfig_cons]
    exact ih _ (mungeStep_doomed action C hC st e h)

/-- The turn of the loop for an entry whose name is in a doomed set leaves the table as it
is. -/
theorem mungeStep_doomed_kb (action : StrMap (List String)) (C : String → Prop)
    (hC : Doomed G action C) (st : Munge) (key name : String) (hname : name ≠ "-")
    (hmem : C name) (h : ∀ n, C n → st.nameToActions.get? n = none) :
    (mungeStep G action st (key, name)).kb = st.kb := by
  obtain ⟨e, he⟩ := (resolveActionName_doomed action C hC name 0 st.nameToActions h).2 hmem
  rw [mungeStep_error action st key name e hname he]

/-- A run of the config loop in which no name runs into the recursion limit: every `"-"`
entry leaves its key unbound; every other entry either binds its key to the action its
name is registered to at the end, or leaves the table at its key as it was, its name then
being in a doomed set of which no member is registered at the end. -/
theorem mungeConfig_first (action : StrMap (List String)) (config : StrMap String) :
    ∀ st : Munge, (config.map Prod.fst).Nodup →
      depthLimitHit G action config st = false →
      ∀ key name, (key, name) ∈ config →
        (name = "-" → (mungeConfig G action config st).kb.get? key = none) ∧
        (name ≠ "-" →
          (∃ a, (mungeConfig G action config st).nameToActions.get? name = some a ∧
            (mungeConfig G action config st).kb.get? key = some a) ∨
          ((mungeConfig G action config st).kb.get? key = st.kb.get? key ∧
            ∃ C : String → Prop, Doomed G action C ∧ C name ∧
              ∀ n, C n → (mungeConfig G action config st).nameToActions.get? n = none)) := by
  induction config with
  | nil => intro st _ _ key name h; cases h
  | cons e config ih =>
    intro st hnd hhit key name hmem
    simp only [List.map_cons, List.nodup_cons] at hnd
    simp only [depthLimitHit, Bool.or_eq_false_iff, Bool.and_eq_false_iff] at hhit
    obtain ⟨hhead, htail⟩ := hhit
    rw [mungeConfig_cons]
    rcases List.mem_cons.mp hmem with heq | hmem
    · subst heq
      rw [mungeConfig_kb_get?_of_not_mem action config key hnd.1]
      constructor
      · intro hn
        simp [mungeStep, hn, StrMap.get?_delete]
      · intro hn
        cases hv : (resolveActionName G action name 0 st.nameToActions).val with
        | ok a =>
          left
          have hreg := resolveActionName_ok_registered action name 0 st.nameToActions a hv
          rw [mungeStep_ok action st key name a hn hv]
          refine ⟨a, mungeConfig_get?_of_get? action config _ name a hreg, ?_⟩
          simp [StrMap.get?_set]
        | error err =>
          right
          cases err with
          | deepRecursion x =>
            exfalso
            rcases hhead with h | h
            · simp [hn] at h
            · simp [hv, isDepthLimit] at h
          | noSuchAction y =>
            obtain ⟨C, hC, hCn, hfree⟩ :=
              resolveActionName_noSuchAction_doomed action name 0 st.nameToActions y hv
            rw [mungeStep_error action st key name _ hn hv]
            refine ⟨rfl, C, hC, hCn, ?_⟩
            apply mungeConfig_doomed action C hC config
            exact (resolveActionName_doomed action C hC name 0 st.nameToActions hfree).1
    · have hne : key ≠ e.1 := fun h => hnd.1 (h ▸ List.mem_map_of_mem Prod.fst hmem)
      have := ih (mungeStep G action st e) hnd.2 htail key name hmem
      rw [mungeStep_kb_get?_of_ne action st e key hne] at this
      exact this

/-- A run of the config loop, read at an entry whose name is registered at the start, or
in a doomed set of which no member is registered at the start: the entry binds its key to
the registered action in the first case and leaves the table at its key as it was in the
second; every `"-"` entry leaves its key unbound. -/
theorem mungeConfig_second (action : StrMap (List String)) (config : StrMap String) :
    ∀ st : Munge, (config.map Prod.fst).Nodup →
      ∀ key name, (key, name) ∈ config →
        (name = "-" → (mungeConfig G action config st).kb.get? key = none) ∧
        (name ≠ "-" →
          (∀ a, st.nameToActions.get? name = some a →
            (mungeConfig G action config st).kb.get? key = some a) ∧
          (∀ C : String → Prop, Doomed G action C → C name →
            (∀ n, C n → st.nameToActions.get? n = none) →
            (mungeConfig G action config st).kb.get? key = st.kb.get? key)) := by
  induction config with
  | nil => intro st _ key name h; cases h
  | cons e config ih =>
    intro st hnd key name hmem
    simp only [List.map_cons, List.nodup_cons] at hnd
    rw [mungeConfig_cons]
    rcases List.mem_cons.mp hmem with heq | hmem
    · subst heq
      rw [mungeConfig_kb_get?_of_not_mem action config key hnd.1]
      refine ⟨fun hn => ?_, fun hn => ⟨fun a ha => ?_, fun C hC hCn hfree => ?_⟩⟩
      · simp [mungeStep, hn, StrMap.get?_delete]
      · have hres := resolveActionName_registered (G := G) action name 0 st.nameToActions a
          (by decide) ha
        rw [mungeStep_ok action st key name a hn (by rw [hres])]
        simp [StrMap.get?_set]
      · rw [mungeStep_doomed_kb action C hC st key name hn hCn hfree]
    · have hne : key ≠ e.1 := fun h => hnd.1 (h ▸ List.mem_map_of_mem Prod.fst hmem)
      have hih := ih (mungeStep G action st e) hnd.2 key name hmem
      refine ⟨hih.1, fun hn => ⟨fun a ha => ?_, fun C hC hCn hfree => ?_⟩⟩
      · exact (hih.2 hn).1 a (mungeStep_get?_of_get? action st e name a ha)
      · rw [(hih.2 hn).2 C hC hCn (mungeStep_doomed action C hC st e hfree),
          mungeStep_kb_get?_of_ne action st e key hne]

/-- C7, as stated, fails: with the chain `c0 = [c1], ..., c99 = [peco.Finish0]` and the
config `a = c0, b = c1` visited in this order both times, the first build leaves `a`
unbound (`c0` runs into the depth limit), and the second build, on the registry of the
first (where `c1` is now registered), binds `a`; the first build is one in which a name runs into the recursion limit. -/
theorem ApplyKeybinding_twice_counterexample :
    ((ApplyKeybinding bits64 recordingKeyseq []
      ⟨[("a", "c0"), ("b", "c1")], chainActions, []⟩ []).kb.get? "a").isSome = false ∧
    ((ApplyKeybinding bits64 recordingKeyseq [] ⟨[("a", "c0"), ("b", "c1")], chainActions, []⟩
      (ApplyKeybinding bits64 recordingKeyseq []
        ⟨[("a", "c0"), ("b", "c1")], chainActions, []⟩ []).nameToActions).kb.get? "a").isSome
      = true ∧
    depthLimitHit bits64 chainActions [("a", "c0"), ("b", "c1")] ⟨copyDefaults [], [], []⟩ =
      true := by
  set_option maxRecDepth 1000000 in decide!


/-- C7 (amended): when no entry of the first `ApplyKeybinding` runs into the recursion
limit (each name resolves, or fails with the no-such-action error), a second
`ApplyKeybinding` from the same defaults, the same combo configuration and the same config
entries, visited in any order, on the registry the first one left, yields a table that
binds the same key specs to the same actions. -/
theorem ApplyKeybinding_twice {σ : Type} (K : KeyseqPkg σ)
    (defaultKeyBinding : StrMap Action) (km km' : Keymap σ) (reg : Registry)
    (hperm : km'.Config.Perm km.Config) (hact : km'.Action = km.Action)
    (hnodup : (km.Config.map Prod.fst).Nodup)
    (hlimit : depthLimitHit G km.Action km.Config
      ⟨copyDefaults defaultKeyBinding, reg, []⟩ = false) (k : String) :
    (ApplyKeybinding G K defaultKeyBinding km'
      (ApplyKeybinding G K defaultKeyBinding km reg).nameToActions).kb.get? k =
    (ApplyKeybinding G K defaultKeyBinding km reg).kb.get? k := by
  have h1 := mungeConfig_first (G := G) km.Action km.Config
    ⟨copyDefaults defaultKeyBinding, reg, []⟩ hnodup hlimit
  have hnodup' : (km'.Config.map Prod.fst).Nodup :=
    (hperm.map Prod.fst).nodup_iff.mpr hnodup
  have h2 := mungeConfig_second (G := G) km.Action km'.Config
    ⟨copyDefaults defaultKeyBinding,
      (mungeConfig G km.Action km.Config
        ⟨copyDefaults defaultKeyBinding, reg, []⟩).nameToActions, []⟩ hnodup'
  show (mungeConfig G km'.Action km'.Config ⟨copyDefaults defaultKeyBinding,
      (mungeConfig G km.Action km.Config
        ⟨copyDefaults defaultKeyBinding, reg, []⟩).nameToActions, []⟩).kb.get? k =
    (mungeConfig G km.Action km.Config ⟨copyDefaults defaultKeyBinding, reg, []⟩).kb.get? k
  rw [hact]
  by_cases hk : k ∈ km.Config.map Prod.fst
  · obtain ⟨⟨key, name⟩, hmem, hkey⟩ := List.mem_map.mp hk
    simp only at hkey
    subst hkey
    have hmem' := hperm.mem_iff.mpr hmem
    by_cases hn : name = "-"
    · rw [(h2 key name hmem').1 hn, (h1 key name hmem).1 hn]
    · rcases (h1 key name hmem).2 hn with ⟨a, ha, hkb⟩ | ⟨hkb, C, hC, hCn, hfree⟩
      · rw [((h2 key name hmem').2 hn).1 a ha, hkb]
      · rw [((h2 key name hmem').2 hn).2 C hC hCn hfree, hkb]
  · have hk' : k ∉ km'.Config.map Prod.fst := fun h =>
      hk ((hperm.map Prod.fst).mem_iff.mp h)
    rw [mungeConfig_kb_get?_of_not_mem km.Action km'.Config k hk',
      mungeConfig_kb_get?_of_not_mem km.Action km.Config k hk]

/-- C7 (amended) at the config `C-x = -, C-y = no.such.action`, visited in the other order
the second time, over defaults that bind both keys: the entry for `C-y` fails in both
builds and both tables bind `C-y` to its default. -/
theorem ApplyKeybinding_twice_witness :
    depthLimitHit bits64 [] [("C-x", "-"), ("C-y", "no.such.action")]
      ⟨copyDefaults [("C-x", Action.builtin "peco.Cancel"), ("C-y", Action.builtin "peco.Yank")],
        [], []⟩ = false ∧
    (ApplyKeybinding bits64 recordingKeyseq
      [("C-x", Action.builtin "peco.Cancel"), ("C-y", Action.builtin "peco.Yank")]
      ⟨[("C-y", "no.such.action"), ("C-x", "-")], [], []⟩
      (ApplyKeybinding bits64 recordingKeyseq
        [("C-x", Action.builtin "peco.Cancel"), ("C-y", Action.builtin "peco.Yank")]
        ⟨[("C-x", "-"), ("C-y", "no.such.action")], [], []⟩ []).nameToActions).kb.get? "C-y" =
    (ApplyKeybinding bits64 recordingKeyseq
      [("C-x", Action.builtin "peco.Cancel"), ("C-y", Action.builtin "peco.Yank")]
      ⟨[("C-x", "-"), ("C-y", "no.such.action")], [], []⟩ []).kb.get? "C-y" :=
  ⟨by decide, ApplyKeybinding_twice (G := bits64) recordingKeyseq
    [("C-x", Action.builtin "peco.Cancel"), ("C-y", Action.builtin "peco.Yank")]
    ⟨[("C-x", "-"), ("C-y", "no.such.action")], [], []⟩
    ⟨[("C-y", "no.such.action"), ("C-x", "-")], [], []⟩ []
    (by decide) rfl (by decide) (by decide) "C-y"⟩

end Peco
